import Mathlib

/-!
Shallow embedding of the BM25 / query-likelihood ranking engine
(indexer.py): inverted-index construction, the two scorers, and the
sort-and-truncate top-K step.

Python dictionaries are modelled as insertion-ordered association lists;
the defaultdict behaviour of the index (a lookup of a missing key inserts
that key with an empty list) is modelled by state-passing functions that
return the possibly-extended index.  Python float arithmetic is modelled
over the reals; the runtime errors of the source (division by zero, log of
a non-positive number, KeyError) are modelled by returning none.
Mutation of the score field of postings stored inside the shared index is
modelled by threading the index through the scorers and updating the
stored postings in place; the top100 list of object references is
modelled as a list of (term, position-in-posting-list) keys, resolved
against the final index before sorting, exactly as Python reads the
mutated objects at sort time.
-/

namespace Indexer

/-- One document of the corpus, already tokenized (the source splits the
raw text on whitespace; positions are 0-based token offsets). -/
structure Doc where
  sceneId : String
  text : List String
deriving Repr, DecidableEq

/-- The Posting record of the source: document id, occurrence positions,
term frequency, document length, the mutable per-query score accumulator
and the corpus size captured at build time. -/
structure Posting where
  doc_id : String
  positions : List Nat
  termCount : Nat
  docLen : Nat
  score : ℝ
  N : Nat

/-- The inverted index: term to posting list, in key insertion order. -/
abbrev Index := List (String × List Posting)

/-- The corpus-wide term-frequency table cqi. -/
abbrev Cqi := List (String × Nat)

/-- Plain dictionary lookup (first entry with the key). -/
def lookupIdx : Index → String → Option (List Posting)
  | [], _ => none
  | e :: rest, t => if e.1 = t then some e.2 else lookupIdx rest t

/-- Lookup in the cqi table (a plain dict: a missing key is a KeyError,
hence the Option). -/
def lookupCqi : Cqi → String → Option Nat
  | [], _ => none
  | e :: rest, t => if e.1 = t then some e.2 else lookupCqi rest t

/-- Lookup through the defaultdict: a missing key is inserted at the end,
bound to the empty list, and the (possibly extended) dictionary is
returned alongside the value. -/
def getDflt (idx : Index) (t : String) : List Posting × Index :=
  match lookupIdx idx t with
  | some ps => (ps, idx)
  | none => ([], idx ++ [(t, [])])

/-- Replace the posting list stored under a key (first entry with the
key), modelling in-place mutation of the stored list. -/
def setList : Index → String → List Posting → Index
  | [], _, _ => []
  | e :: rest, t, ps => if e.1 = t then (e.1, ps) :: rest else e :: setList rest t ps

/-- index[term].append(p): append to the key's list, inserting the key at
the end if it is missing (defaultdict getitem followed by list append). -/
def appendPosting : Index → String → Posting → Index
  | [], t, p => [(t, [p])]
  | e :: rest, t, p =>
      if e.1 = t then (e.1, e.2 ++ [p]) :: rest else e :: appendPosting rest t p

/-- cqi update of the source: first occurrence installs the count,
later occurrences add to it. -/
def bumpCqi : Cqi → String → Nat → Cqi
  | [], t, n => [(t, n)]
  | e :: rest, t, n =>
      if e.1 = t then (e.1, e.2 + n) :: rest else e :: bumpCqi rest t n

/-- The per-document dictionary doc_index: term to its list of positions. -/
abbrev DocIdx := List (String × List Nat)

/-- doc_index[term].append(i). -/
def addPos : DocIdx → String → Nat → DocIdx
  | [], t, i => [(t, [i])]
  | e :: rest, t, i =>
      if e.1 = t then (e.1, e.2 ++ [i]) :: rest else e :: addPos rest t i

/-- The tokenize-and-enumerate loop of build_index: walks the token list
with its position counter, accumulating the per-document index and the
running collection length (incremented once per token). -/
def docIndexAux : List String → Nat → DocIdx × Nat → DocIdx × Nat
  | [], _, st => st
  | tok :: rest, i, (d, c) => docIndexAux rest (i + 1) (addPos d tok i, c + 1)

/-- The second loop of build_index over one document: every (term,
positions) pair of the per-document index yields one Posting appended to
the global index, and bumps the corpus-wide frequency table. -/
def insertPostings (sceneId : String) (dl nDocs : Nat) :
    DocIdx → Index × Cqi → Index × Cqi
  | [], st => st
  | (t, poss) :: rest, (idx, cqi) =>
      insertPostings sceneId dl nDocs rest
        (appendPosting idx t ⟨sceneId, poss, poss.length, dl, 0, nDocs⟩,
         bumpCqi cqi t poss.length)

/-- Processing of one document inside build_index. -/
def buildStep (nDocs : Nat) (st : Index × Nat × Cqi) (doc : Doc) :
    Index × Nat × Cqi :=
  let dc := docIndexAux doc.text 0 ([], st.2.1)
  let ic := insertPostings doc.sceneId doc.text.length nDocs dc.1 (st.1, st.2.2)
  (ic.1, dc.2, ic.2)

/-- build_index of the source (the corpus itself is returned unchanged by
the source and is therefore not duplicated here): yields the inverted
index, the collection length and the corpus-wide frequency table. -/
def build_index (corpus : List Doc) : Index × Nat × Cqi :=
  corpus.foldl (buildStep corpus.length) ([], 0, [])

/-- The uniqueQueryTerms loop of bm25_ranking (also the iteration order
of the Counter keys in ql_ranking): first occurrences, in order. -/
def uniqueQueryTerms (q : List String) : List String :=
  q.foldl (fun acc t => if t ∈ acc then acc else acc ++ [t]) []

/-- BM25 constant k1. -/
def k1 : ℝ := 1.8

/-- BM25 constant k2. -/
def k2 : ℝ := 5

/-- BM25 constant b. -/
def b : ℝ := 0.75

/-- QL smoothing constant mu (mue in the source). -/
def mue : ℝ := 300

/-- The length-normalisation factor K of bm25_ranking. -/
noncomputable def Kfac (dl : ℕ) (avgdl : ℝ) : ℝ :=
  k1 * ((1 - b) + b * ((dl : ℝ) / avgdl))

/-- The inverse-document-frequency factor of bm25_ranking (the first
factor of the source). -/
noncomputable def idf (nDocs ni : ℕ) : ℝ :=
  Real.log (((nDocs : ℝ) - (ni : ℝ) + 0.5) / ((ni : ℝ) + 0.5))

/-- The term-frequency factor of bm25_ranking (the second factor). -/
noncomputable def tfWeight (fi : ℕ) (K : ℝ) : ℝ :=
  ((k1 + 1) * (fi : ℝ)) / (K + (fi : ℝ))

/-- The query-term-frequency factor of bm25_ranking (the third factor). -/
noncomputable def qtfWeight (qfi : ℕ) : ℝ :=
  ((k2 + 1) * (qfi : ℝ)) / (k2 + (qfi : ℝ))

/-- One BM25 term contribution: first * second * third of the source. -/
noncomputable def bm25Contrib (nDocs ni qfi fi dl : ℕ) (avgdl : ℝ) : ℝ :=
  idf nDocs ni * tfWeight fi (Kfac dl avgdl) * qtfWeight qfi

/-- One QL (Dirichlet-smoothed) contribution. -/
noncomputable def qlContrib (cqiT collLen fqi cardD : ℕ) : ℝ :=
  Real.log (((fqi : ℝ) + mue * ((cqiT : ℝ) / (collLen : ℝ))) / ((cardD : ℝ) + mue))

/-- An object reference held by the top100 list: the term and the
position of the posting inside that term's posting list. -/
abbrev Ref := String × Nat

/-- The inner posting loop of bm25_ranking for one document and one query
term: every posting whose doc_id matches the current document adds its
contribution to the per-document accumulator, has its stored score field
overwritten with the accumulator, and is appended (as a reference) to the
top100 list.  The source raises ZeroDivisionError on dl / avgdl when the
collection length is zero and ValueError on the log when ni exceeds the
corpus size; both are modelled as none (these computations happen only
inside the matched branch). -/
noncomputable def bm25Scan (docId : String) (nDocs ni qfi collLen : ℕ) (avgdl : ℝ)
    (t : String) :
    List Posting → Nat → ℝ → List Ref → Option (List Posting × ℝ × List Ref)
  | [], _, acc, refs => some ([], acc, refs)
  | p :: rest, i, acc, refs =>
      if p.doc_id = docId then
        if collLen = 0 then none
        else if nDocs < ni then none
        else
          let acc' := acc + bm25Contrib nDocs ni qfi p.termCount p.docLen avgdl
          match bm25Scan docId nDocs ni qfi collLen avgdl t rest (i + 1) acc'
              (refs ++ [(t, i)]) with
          | none => none
          | some (rest', acc2, refs') => some ({ p with score := acc' } :: rest', acc2, refs')
      else
        match bm25Scan docId nDocs ni qfi collLen avgdl t rest (i + 1) acc refs with
        | none => none
        | some (rest', acc2, refs') => some (p :: rest', acc2, refs')

/-- The query-term loop of bm25_ranking for one document: each term is
looked up through the defaultdict (inserting missing terms), ni is the
posting-list length, qfi the query-term count, and the posting list is
scanned and written back. -/
noncomputable def bm25TermsFold (docId : String) (nDocs collLen : ℕ) (avgdl : ℝ)
    (q : List String) :
    List String → Index → ℝ → List Ref → Option (Index × ℝ × List Ref)
  | [], idx, acc, refs => some (idx, acc, refs)
  | t :: rest, idx, acc, refs =>
      let pi := getDflt idx t
      match bm25Scan docId nDocs pi.1.length (q.count t) collLen avgdl t pi.1 0 acc refs with
      | none => none
      | some (ps', acc', refs') =>
          bm25TermsFold docId nDocs collLen avgdl q rest (setList pi.2 t ps') acc' refs'

/-- The document loop of bm25_ranking: the per-document accumulator
starts at zero for each document and its final value is dropped (it
survives only inside the mutated posting score fields). -/
noncomputable def bm25DocsFold (nDocs collLen : ℕ) (avgdl : ℝ) (q : List String) :
    List Doc → Index → List Ref → Option (Index × List Ref)
  | [], idx, refs => some (idx, refs)
  | d :: rest, idx, refs =>
      match bm25TermsFold d.sceneId nDocs collLen avgdl q (uniqueQueryTerms q) idx 0 refs with
      | none => none
      | some (idx', _, refs') => bm25DocsFold nDocs collLen avgdl q rest idx' refs'

/-- Resolution of the top100 references against the final state of the
index: Python holds object references and reads their mutated fields at
sort time. -/
def resolveRefs (idx : Index) (refs : List Ref) : List Posting :=
  refs.filterMap (fun r => (lookupIdx idx r.1).bind (fun ps => ps[r.2]?))

/-- The comparison of the sort key: descending by score (reverse=True of
the Python stable sort). -/
noncomputable def scoreDescLe (a c : Posting) : Bool := decide (c.score ≤ a.score)

/-- top100.sort(key=score, reverse=True) followed by top100[:100]:
a stable descending sort and truncation to the first 100 entries. -/
noncomputable def topK (entries : List Posting) (k : Nat) : List Posting :=
  (entries.mergeSort scoreDescLe).take k

/-- The pre-truncation entry list of bm25_ranking: the resolved top100
references before sorting and truncation. -/
noncomputable def bm25Entries (idx : Index) (queryTerms : List String)
    (corpus : List Doc) (collLen : ℕ) : Option (List Posting) :=
  match bm25DocsFold corpus.length collLen ((collLen : ℝ) / (corpus.length : ℝ))
      queryTerms corpus idx [] with
  | none => none
  | some (idx', refs) => some (resolveRefs idx' refs)

/-- bm25_ranking of the source: fails (ZeroDivisionError computing avgdl)
on an empty corpus, otherwise scores every document against the unique
query terms, mutating the shared index, and returns the sorted truncated
top100 together with the final state of the index. -/
noncomputable def bm25_ranking (idx : Index) (queryTerms : List String)
    (corpus : List Doc) (collLen : ℕ) : Option (List Posting × Index) :=
  if corpus.length = 0 then none
  else
    match bm25DocsFold corpus.length collLen ((collLen : ℝ) / (corpus.length : ℝ))
        queryTerms corpus idx [] with
    | none => none
    | some (idx', refs) => some (topK (resolveRefs idx' refs) 100, idx')

/-- The inner posting loop of ql_ranking for one document and one query
term: every posting of the term (matching the document or not) receives
one smoothing contribution added onto its stored score and is appended to
the top100 list.  The source raises ZeroDivisionError when the collection
length is zero and ValueError (log of zero) when both the local and the
corpus-wide frequency vanish; both are modelled as none. -/
noncomputable def qlScan (docId : String) (cqiT collLen : ℕ) (t : String) :
    List Posting → Nat → List Ref → Option (List Posting × List Ref)
  | [], _, refs => some ([], refs)
  | p :: rest, i, refs =>
      let fqi := if p.doc_id = docId then p.termCount else 0
      if collLen = 0 then none
      else if fqi = 0 ∧ cqiT = 0 then none
      else
        match qlScan docId cqiT collLen t rest (i + 1) (refs ++ [(t, i)]) with
        | none => none
        | some (rest', refs') =>
            some ({ p with score := p.score + qlContrib cqiT collLen fqi p.docLen } :: rest',
              refs')

/-- The query-term loop of ql_ranking for one document: terms with an
empty posting list are skipped entirely (the posting loop never runs, so
the cqi table is not consulted); otherwise a missing cqi entry is a
KeyError, modelled as none. -/
noncomputable def qlTermStep (docId : String) (collLen : ℕ) (cqi : Cqi)
    (st : Index × List Ref) (t : String) : Option (Index × List Ref) :=
  let pi := getDflt st.1 t
  match pi.1 with
  | [] => some (pi.2, st.2)
  | _ =>
      match lookupCqi cqi t with
      | none => none
      | some cqiT =>
          match qlScan docId cqiT collLen t pi.1 0 st.2 with
          | none => none
          | some (ps', refs') => some (setList pi.2 t ps', refs')

/-- Folding the query-term loop of ql_ranking over the term list. -/
noncomputable def qlTermsFold (docId : String) (collLen : ℕ) (cqi : Cqi) :
    List String → Index × List Ref → Option (Index × List Ref)
  | [], st => some st
  | t :: rest, st =>
      match qlTermStep docId collLen cqi st t with
      | none => none
      | some st' => qlTermsFold docId collLen cqi rest st'

/-- The document loop of ql_ranking. -/
noncomputable def qlDocsFold (collLen : ℕ) (cqi : Cqi) (q : List String) :
    List Doc → Index × List Ref → Option (Index × List Ref)
  | [], st => some st
  | d :: rest, st =>
      match qlTermsFold d.sceneId collLen cqi (uniqueQueryTerms q) st with
      | none => none
      | some st' => qlDocsFold collLen cqi q rest st'

/-- The pre-truncation entry list of ql_ranking: the resolved top100
references before sorting and truncation. -/
noncomputable def qlEntries (idx : Index) (terms : List String) (corpus : List Doc)
    (collLen : ℕ) (cqi : Cqi) : Option (List Posting) :=
  match qlDocsFold collLen cqi terms corpus (idx, []) with
  | none => none
  | some (idx', refs) => some (resolveRefs idx' refs)

/-- ql_ranking of the source: every document is scored against every
query term once per posting of that term (the nested-loop shape of the
source), mutating the shared index, and the sorted truncated top100 is
returned together with the final state of the index. -/
noncomputable def ql_ranking (idx : Index) (terms : List String) (corpus : List Doc)
    (collLen : ℕ) (cqi : Cqi) : Option (List Posting × Index) :=
  match qlDocsFold collLen cqi terms corpus (idx, []) with
  | none => none
  | some (idx', refs) => some (topK (resolveRefs idx' refs) 100, idx')

/-! ### Characterization of the built index -/

/-- Positions (0-based token offsets, shifted by i) at which a term
occurs in a token list. -/
def posOf (t : String) : List String → Nat → List Nat
  | [], _ => []
  | tok :: rest, i => if tok = t then i :: posOf t rest (i + 1) else posOf t rest (i + 1)

/-- The canonical posting that build_index creates for a term occurring
in a document. -/
def mkPosting (t : String) (nDocs : Nat) (d : Doc) : Posting :=
  ⟨d.sceneId, posOf t d.text 0, (posOf t d.text 0).length, d.text.length, 0, nDocs⟩

/-- The canonical posting list of a term: one posting per document
containing the term, in corpus order. -/
def postList (t : String) (nDocs : Nat) (docs : List Doc) : List Posting :=
  (docs.filter (fun d => t ∈ d.text)).map (mkPosting t nDocs)

/-- Corpus-wide frequency of a term: total occurrence count. -/
def cqiSum (t : String) (docs : List Doc) : Nat :=
  (docs.map (fun d => d.text.count t)).sum

/-- Lookup in the per-document index. -/
def lookupD : DocIdx → String → Option (List Nat)
  | [], _ => none
  | e :: rest, t => if e.1 = t then some e.2 else lookupD rest t

theorem lookupD_addPos (d : DocIdx) (t u : String) (i : Nat) :
    lookupD (addPos d t i) u =
      if u = t then some ((lookupD d t).getD [] ++ [i]) else lookupD d u := by
  induction d with
  | nil =>
      by_cases h : u = t
      · subst h; simp [addPos, lookupD]
      · simp [addPos, lookupD, h, Ne.symm h]
  | cons e rest ih =>
      by_cases he : e.1 = t
      · by_cases hu : u = t
        · subst hu; simp [addPos, lookupD, he]
        · simp [addPos, lookupD, he, hu, Ne.symm hu]
      · by_cases hu : e.1 = u
        · have h2 : ¬ u = t := fun h => he (hu.trans h)
          simp [addPos, lookupD, he, hu, h2]
        · simp [addPos, lookupD, he, hu, ih]

theorem lookupD_eq_none (d : DocIdx) (u : String) :
    lookupD d u = none ↔ u ∉ d.map Prod.fst := by
  induction d with
  | nil => simp [lookupD]
  | cons e rest ih =>
      by_cases h : e.1 = u
      · simp [lookupD, h]
      · simp [lookupD, h, ih, Ne.symm h]

theorem addPos_keys (d : DocIdx) (t : String) (i : Nat) :
    (addPos d t i).map Prod.fst =
      if t ∈ d.map Prod.fst then d.map Prod.fst else d.map Prod.fst ++ [t] := by
  induction d with
  | nil => simp [addPos]
  | cons e rest ih =>
      by_cases h : e.1 = t
      · simp [addPos, h]
      · simp only [addPos, if_neg h, List.map_cons, ih]
        by_cases hm : t ∈ rest.map Prod.fst <;> simp [hm, h, Ne.symm h]

theorem addPos_keys_nodup (d : DocIdx) (t : String) (i : Nat)
    (h : (d.map Prod.fst).Nodup) : ((addPos d t i).map Prod.fst).Nodup := by
  rw [addPos_keys]
  by_cases hm : t ∈ d.map Prod.fst
  · simpa [hm]
  · simpa [hm, List.nodup_append] using h

theorem docIndexAux_snd (toks : List String) (i : Nat) (d : DocIdx) (c : Nat) :
    (docIndexAux toks i (d, c)).2 = c + toks.length := by
  induction toks generalizing i d c with
  | nil => simp [docIndexAux]
  | cons tok rest ih => simp [docIndexAux, ih]; omega

theorem docIndexAux_lookup (toks : List String) (u : String) :
    ∀ (i : Nat) (d : DocIdx) (c : Nat),
      lookupD (docIndexAux toks i (d, c)).1 u =
        match lookupD d u with
        | some l => some (l ++ posOf u toks i)
        | none => if u ∈ toks then some (posOf u toks i) else none := by
  induction toks with
  | nil =>
      intro i d c
      cases h : lookupD d u <;> simp [docIndexAux, posOf, h]
  | cons tok rest ih =>
      intro i d c
      simp only [docIndexAux]
      rw [ih]
      rw [lookupD_addPos]
      by_cases ht : u = tok
      · subst ht
        cases h : lookupD d u <;> simp [posOf, h]
      · cases h : lookupD d u <;>
          simp [posOf, ht, Ne.symm ht, h]

theorem docIndexAux_keys_nodup (toks : List String) :
    ∀ (i : Nat) (d : DocIdx) (c : Nat), (d.map Prod.fst).Nodup →
      ((docIndexAux toks i (d, c)).1.map Prod.fst).Nodup := by
  induction toks with
  | nil => intro i d c h; simpa [docIndexAux] using h
  | cons tok rest ih =>
      intro i d c h
      exact ih (i + 1) _ (c + 1) (addPos_keys_nodup d tok i h)

theorem posOf_length (t : String) (toks : List String) :
    ∀ i, (posOf t toks i).length = toks.count t := by
  induction toks with
  | nil => simp [posOf]
  | cons tok rest ih =>
      intro i
      by_cases h : tok = t <;>
        simp [posOf, h, List.count_cons, ih]

theorem posOf_lb (t : String) (toks : List String) :
    ∀ i, ∀ x ∈ posOf t toks i, i ≤ x := by
  induction toks with
  | nil => simp [posOf]
  | cons tok rest ih =>
      intro i x hx
      by_cases h : tok = t <;> simp [posOf, h] at hx
      · rcases hx with rfl | hx
        · exact le_refl x
        · exact le_of_lt (lt_of_lt_of_le (Nat.lt_succ_self i) (ih (i + 1) x hx))
      · exact le_of_lt (lt_of_lt_of_le (Nat.lt_succ_self i) (ih (i + 1) x hx))

theorem posOf_chain (t : String) (toks : List String) :
    ∀ i, (posOf t toks i).Chain' (· < ·) := by
  induction toks with
  | nil => simp [posOf]
  | cons tok rest ih =>
      intro i
      by_cases h : tok = t <;> simp [posOf, h]
      · refine List.chain'_cons'.mpr ⟨?_, ih (i + 1)⟩
        intro y hy
        have := posOf_lb t rest (i + 1) y (List.mem_of_mem_head? hy)
        omega
      · exact ih (i + 1)

theorem posOf_ne_nil (t : String) (toks : List String) (i : Nat) :
    posOf t toks i ≠ [] ↔ t ∈ toks := by
  induction toks generalizing i with
  | nil => simp [posOf]
  | cons tok rest ih =>
      by_cases h : tok = t
      · subst h; simp [posOf]
      · simp [posOf, h, ih (i + 1), Ne.symm h]

theorem lookupIdx_appendPosting (idx : Index) (t u : String) (p : Posting) :
    lookupIdx (appendPosting idx t p) u =
      if u = t then some ((lookupIdx idx t).getD [] ++ [p]) else lookupIdx idx u := by
  induction idx with
  | nil =>
      by_cases h : u = t
      · subst h; simp [appendPosting, lookupIdx]
      · simp [appendPosting, lookupIdx, h, Ne.symm h]
  | cons e rest ih =>
      by_cases he : e.1 = t
      · by_cases hu : u = t
        · subst hu; simp [appendPosting, lookupIdx, he]
        · simp [appendPosting, lookupIdx, he, hu, Ne.symm hu]
      · by_cases hu : e.1 = u
        · have h2 : ¬ u = t := fun h => he (hu.trans h)
          simp [appendPosting, lookupIdx, he, hu, h2]
        · simp [appendPosting, lookupIdx, he, hu, ih]

theorem lookupCqi_bumpCqi (cqi : Cqi) (t u : String) (n : Nat) :
    lookupCqi (bumpCqi cqi t n) u =
      if u = t then some ((lookupCqi cqi t).getD 0 + n) else lookupCqi cqi u := by
  induction cqi with
  | nil =>
      by_cases h : u = t
      · subst h; simp [bumpCqi, lookupCqi]
      · simp [bumpCqi, lookupCqi, h, Ne.symm h]
  | cons e rest ih =>
      by_cases he : e.1 = t
      · by_cases hu : u = t
        · subst hu; simp [bumpCqi, lookupCqi, he]
        · simp [bumpCqi, lookupCqi, he, hu, Ne.symm hu]
      · by_cases hu : e.1 = u
        · have h2 : ¬ u = t := fun h => he (hu.trans h)
          simp [bumpCqi, lookupCqi, he, hu, h2]
        · simp [bumpCqi, lookupCqi, he, hu, ih]

theorem insertPostings_lookup_notin (sid : String) (dl n : Nat) (dix : DocIdx)
    (u : String) (hu : u ∉ dix.map Prod.fst) :
    ∀ (idx : Index) (cqi : Cqi),
      lookupIdx (insertPostings sid dl n dix (idx, cqi)).1 u = lookupIdx idx u ∧
      lookupCqi (insertPostings sid dl n dix (idx, cqi)).2 u = lookupCqi cqi u := by
  induction dix with
  | nil => intro idx cqi; simp [insertPostings]
  | cons e rest ih =>
      intro idx cqi
      obtain ⟨t, poss⟩ := e
      rw [List.map_cons] at hu
      have h1 : ¬ u = t := fun h => hu (by simp [h])
      have h2 : u ∉ rest.map Prod.fst := fun h => hu (by simp [h])
      simp only [insertPostings]
      rw [(ih h2 _ _).1, (ih h2 _ _).2, lookupIdx_appendPosting, lookupCqi_bumpCqi]
      simp [h1]

theorem insertPostings_lookup (sid : String) (dl n : Nat) (dix : DocIdx)
    (u : String) (hnd : (dix.map Prod.fst).Nodup) :
    ∀ (idx : Index) (cqi : Cqi),
      lookupIdx (insertPostings sid dl n dix (idx, cqi)).1 u =
        (match lookupD dix u with
          | some poss => some ((lookupIdx idx u).getD [] ++ [⟨sid, poss, poss.length, dl, 0, n⟩])
          | none => lookupIdx idx u) ∧
      lookupCqi (insertPostings sid dl n dix (idx, cqi)).2 u =
        (match lookupD dix u with
          | some poss => some ((lookupCqi cqi u).getD 0 + poss.length)
          | none => lookupCqi cqi u) := by
  induction dix with
  | nil => intro idx cqi; simp [insertPostings, lookupD]
  | cons e rest ih =>
      intro idx cqi
      obtain ⟨t, poss⟩ := e
      rw [List.map_cons] at hnd
      by_cases h : u = t
      · subst h
        have hrest : u ∉ rest.map Prod.fst := (List.nodup_cons.mp hnd).1
        simp only [insertPostings, lookupD, if_pos rfl]
        rw [(insertPostings_lookup_notin sid dl n rest u hrest _ _).1,
          (insertPostings_lookup_notin sid dl n rest u hrest _ _).2,
          lookupIdx_appendPosting, lookupCqi_bumpCqi]
        simp
      · have hnd2 : (rest.map Prod.fst).Nodup := (List.nodup_cons.mp hnd).2
        simp only [insertPostings, lookupD, if_neg (Ne.symm h)]
        rw [(ih hnd2 _ _).1, (ih hnd2 _ _).2, lookupIdx_appendPosting, lookupCqi_bumpCqi]
        simp [h]

/-- Full characterization of the builder state after processing a list
of documents: every term maps to its canonical posting list, the
collection length is the total token count, and the frequency table
holds the corpus-wide counts. -/
def BuildChar (nDocs : Nat) (docs : List Doc) (st : Index × Nat × Cqi) : Prop :=
  (∀ t, lookupIdx st.1 t =
      if docs.any (fun d => t ∈ d.text) then some (postList t nDocs docs) else none) ∧
  st.2.1 = (docs.map (fun d => d.text.length)).sum ∧
  (∀ t, lookupCqi st.2.2 t =
      if docs.any (fun d => t ∈ d.text) then some (cqiSum t docs) else none)

theorem postList_nil_of_not_mem (u : String) (n : Nat) (docs : List Doc)
    (h : ∀ d ∈ docs, u ∉ d.text) : postList u n docs = [] := by
  unfold postList
  rw [List.filter_eq_nil_iff.mpr (by intro d hd; simpa using h d hd)]
  rfl

theorem postList_append_mem (u : String) (n : Nat) (pre : List Doc) (d : Doc)
    (hm : u ∈ d.text) :
    postList u n (pre ++ [d]) = postList u n pre ++ [mkPosting u n d] := by
  simp [postList, List.filter_append, hm]

theorem postList_append_not_mem (u : String) (n : Nat) (pre : List Doc) (d : Doc)
    (hm : u ∉ d.text) : postList u n (pre ++ [d]) = postList u n pre := by
  simp [postList, List.filter_append, hm]

theorem cqiSum_append_single (u : String) (pre : List Doc) (d : Doc) :
    cqiSum u (pre ++ [d]) = cqiSum u pre + d.text.count u := by
  simp [cqiSum]

theorem cqiSum_zero_of_not_mem (u : String) (docs : List Doc)
    (h : ∀ d ∈ docs, u ∉ d.text) : cqiSum u docs = 0 := by
  unfold cqiSum
  rw [List.sum_eq_zero]
  intro x hx
  obtain ⟨d, hd, rfl⟩ := List.mem_map.mp hx
  exact List.count_eq_zero.mpr (h d hd)

theorem buildStep_char (nDocs : Nat) (pre : List Doc) (st : Index × Nat × Cqi) (d : Doc)
    (h : BuildChar nDocs pre st) : BuildChar nDocs (pre ++ [d]) (buildStep nDocs st d) := by
  obtain ⟨idx, clen, cqi⟩ := st
  obtain ⟨hidx, hlen, hcqi⟩ := h
  dsimp only at hidx hlen hcqi
  have dixlen := docIndexAux_snd d.text 0 [] clen
  have dlook : ∀ u, lookupD (docIndexAux d.text 0 ([], clen)).1 u =
      if u ∈ d.text then some (posOf u d.text 0) else none := by
    intro u
    have := docIndexAux_lookup d.text u 0 [] clen
    simpa [lookupD] using this
  have dnd : ((docIndexAux d.text 0 ([], clen)).1.map Prod.fst).Nodup :=
    docIndexAux_keys_nodup d.text 0 [] clen (by simp)
  refine ⟨?_, ?_, ?_⟩
  · intro u
    have hins := (insertPostings_lookup d.sceneId d.text.length nDocs
      (docIndexAux d.text 0 ([], clen)).1 u dnd idx cqi).1
    dsimp only [buildStep]
    rw [hins, dlook u]
    by_cases hm : u ∈ d.text
    · rw [if_pos hm]
      dsimp only
      have hany : (pre ++ [d]).any (fun e => u ∈ e.text) = true := by
        simp [List.any_append, hm]
      rw [if_pos hany, postList_append_mem u nDocs pre d hm]
      by_cases hpre : pre.any (fun e => u ∈ e.text) = true
      · rw [hidx u, if_pos hpre]
        simp [mkPosting]
      · rw [hidx u, if_neg hpre]
        have hnone : ∀ e ∈ pre, u ∉ e.text := by
          intro e he hmem
          exact hpre (by simp only [List.any_eq_true, decide_eq_true_eq]; exact ⟨e, he, hmem⟩)
        rw [postList_nil_of_not_mem u nDocs pre hnone]
        simp [mkPosting]
    · rw [if_neg hm]
      dsimp only
      have heq : (pre ++ [d]).any (fun e => u ∈ e.text) = pre.any (fun e => u ∈ e.text) := by
        simp [List.any_append, hm]
      rw [heq, hidx u]
      by_cases hpre : pre.any (fun e => u ∈ e.text) = true
      · rw [if_pos hpre, if_pos hpre, postList_append_not_mem u nDocs pre d hm]
      · rw [if_neg hpre, if_neg hpre]
  · dsimp only [buildStep]
    rw [dixlen, hlen]
    simp
  · intro u
    have hins := (insertPostings_lookup d.sceneId d.text.length nDocs
      (docIndexAux d.text 0 ([], clen)).1 u dnd idx cqi).2
    dsimp only [buildStep]
    rw [hins, dlook u]
    by_cases hm : u ∈ d.text
    · rw [if_pos hm]
      dsimp only
      have hany : (pre ++ [d]).any (fun e => u ∈ e.text) = true := by
        simp [List.any_append, hm]
      rw [if_pos hany, posOf_length, cqiSum_append_single]
      by_cases hpre : pre.any (fun e => u ∈ e.text) = true
      · rw [hcqi u, if_pos hpre]
        simp
      · rw [hcqi u, if_neg hpre]
        have hnone : ∀ e ∈ pre, u ∉ e.text := by
          intro e he hmem
          exact hpre (by simp only [List.any_eq_true, decide_eq_true_eq]; exact ⟨e, he, hmem⟩)
        rw [cqiSum_zero_of_not_mem u pre hnone]
        simp
    · rw [if_neg hm]
      dsimp only
      have heq : (pre ++ [d]).any (fun e => u ∈ e.text) = pre.any (fun e => u ∈ e.text) := by
        simp [List.any_append, hm]
      rw [heq, hcqi u]
      by_cases hpre : pre.any (fun e => u ∈ e.text) = true
      · rw [if_pos hpre, if_pos hpre, cqiSum_append_single,
          List.count_eq_zero.mpr hm]
        simp
      · rw [if_neg hpre, if_neg hpre]

theorem build_fold (nDocs : Nat) :
    ∀ (docs pre : List Doc) (st : Index × Nat × Cqi), BuildChar nDocs pre st →
      BuildChar nDocs (pre ++ docs) (docs.foldl (buildStep nDocs) st) := by
  intro docs
  induction docs with
  | nil => intro pre st h; simpa using h
  | cons d rest ih =>
      intro pre st h
      have := ih (pre ++ [d]) _ (buildStep_char nDocs pre st d h)
      simpa using this

theorem build_index_char (corpus : List Doc) :
    BuildChar corpus.length corpus (build_index corpus) := by
  have h0 : BuildChar corpus.length [] ([], 0, []) := by
    refine ⟨?_, rfl, ?_⟩ <;> intro t <;> simp [lookupIdx, lookupCqi]
  simpa using build_fold corpus.length corpus [] _ h0

theorem cqiSum_eq_filter (t : String) (docs : List Doc) :
    cqiSum t docs =
      ((docs.filter (fun d => t ∈ d.text)).map (fun d => d.text.count t)).sum := by
  induction docs with
  | nil => simp [cqiSum]
  | cons d rest ih =>
      by_cases hm : t ∈ d.text
      · simp [cqiSum, List.filter_cons, hm] at ih ⊢
        omega
      · simp [cqiSum, List.filter_cons, hm, List.count_eq_zero.mpr hm] at ih ⊢
        exact ih

/-! ### Lookup lemmas for the state operations of the scorers -/

theorem getDflt_fst (idx : Index) (t : String) :
    (getDflt idx t).1 = (lookupIdx idx t).getD [] := by
  cases h : lookupIdx idx t <;> simp [getDflt, h]

theorem lookupIdx_append (idx1 idx2 : Index) (u : String) :
    lookupIdx (idx1 ++ idx2) u =
      match lookupIdx idx1 u with
      | some ps => some ps
      | none => lookupIdx idx2 u := by
  induction idx1 with
  | nil => simp [lookupIdx]
  | cons e rest ih =>
      by_cases h : e.1 = u <;> simp [lookupIdx, h, ih]

theorem getDflt_snd_lookup (idx : Index) (t u : String) :
    lookupIdx (getDflt idx t).2 u =
      if u = t then some ((lookupIdx idx t).getD []) else lookupIdx idx u := by
  cases h : lookupIdx idx t with
  | some ps =>
      by_cases hu : u = t
      · subst hu; simp [getDflt, h]
      · simp [getDflt, h, hu]
  | none =>
      by_cases hu : u = t
      · subst hu; simp [getDflt, h, lookupIdx_append, lookupIdx]
      · simp [getDflt, h, hu, lookupIdx_append, lookupIdx, Ne.symm hu]
        cases hx : lookupIdx idx u <;> simp [hx]

theorem setList_lookup_self (idx : Index) (t : String) (ps : List Posting)
    (h : (lookupIdx idx t).isSome) : lookupIdx (setList idx t ps) t = some ps := by
  induction idx with
  | nil => simp [lookupIdx] at h
  | cons e rest ih =>
      by_cases he : e.1 = t
      · simp [setList, lookupIdx, he]
      · simp [setList, lookupIdx, he] at h ⊢
        exact ih h

theorem setList_lookup_other (idx : Index) (t : String) (ps : List Posting)
    (u : String) (h : u ≠ t) : lookupIdx (setList idx t ps) u = lookupIdx idx u := by
  induction idx with
  | nil => simp [setList]
  | cons e rest ih =>
      by_cases he : e.1 = t
      · have hne : ¬ e.1 = u := fun hh => h (hh.symm.trans he)
        simp [setList, lookupIdx, he, hne, Ne.symm h]
      · simp only [setList, if_neg he]
        by_cases hu : e.1 = u
        · simp [lookupIdx, hu]
        · simp [lookupIdx, hu, ih]

/-- Everything of a posting except its mutable score field. -/
def pShape (p : Posting) : String × List Nat × Nat × Nat × Nat :=
  (p.doc_id, p.positions, p.termCount, p.docLen, p.N)

/-- The references appended by the matched branch of the BM25 posting
scan: one per posting whose doc_id matches. -/
def matchRefs (t docId : String) : List Posting → Nat → List Ref
  | [], _ => []
  | p :: rest, i =>
      if p.doc_id = docId then (t, i) :: matchRefs t docId rest (i + 1)
      else matchRefs t docId rest (i + 1)

/-- The references appended by the QL posting scan: one per posting,
matched or not. -/
def seqRefs (t : String) : List Posting → Nat → List Ref
  | [], _ => []
  | _ :: rest, i => (t, i) :: seqRefs t rest (i + 1)

/-- Total BM25 contribution of one posting list to one document. -/
noncomputable def contribSum (docId : String) (nDocs ni qfi : Nat) (avgdl : ℝ)
    (ps : List Posting) : ℝ :=
  ((ps.filter (fun p => p.doc_id = docId)).map
    (fun p => bm25Contrib nDocs ni qfi p.termCount p.docLen avgdl)).sum

theorem bm25Scan_char (docId t : String) (nDocs ni qfi collLen : Nat) (avgdl : ℝ) :
    ∀ (ps : List Posting) (i : Nat) (acc : ℝ) (refs : List Ref),
      (∀ p ∈ ps, p.doc_id = docId → collLen ≠ 0 ∧ ni ≤ nDocs) →
      ∃ ps2, bm25Scan docId nDocs ni qfi collLen avgdl t ps i acc refs =
          some (ps2, acc + contribSum docId nDocs ni qfi avgdl ps,
            refs ++ matchRefs t docId ps i) ∧
        ps2.map pShape = ps.map pShape := by
  intro ps
  induction ps with
  | nil =>
      intro i acc refs _
      exact ⟨[], by simp [bm25Scan, contribSum, matchRefs], rfl⟩
  | cons p rest ih =>
      intro i acc refs h
      by_cases hp : p.doc_id = docId
      · obtain ⟨hc, hn⟩ := h p (List.mem_cons_self p rest) hp
        obtain ⟨ps2, heq, hsh⟩ := ih (i + 1)
          (acc + bm25Contrib nDocs ni qfi p.termCount p.docLen avgdl)
          (refs ++ [(t, i)]) (fun r hr => h r (List.mem_cons_of_mem p hr))
        refine ⟨{ p with score :=
            acc + bm25Contrib nDocs ni qfi p.termCount p.docLen avgdl } :: ps2, ?_, ?_⟩
        · simp only [bm25Scan, if_pos hp, if_neg hc, if_neg (by omega : ¬ nDocs < ni), heq]
          simp [contribSum, matchRefs, hp, add_assoc]
        · simp [pShape, hsh]
      · obtain ⟨ps2, heq, hsh⟩ := ih (i + 1) acc refs
          (fun r hr => h r (List.mem_cons_of_mem p hr))
        refine ⟨p :: ps2, ?_, ?_⟩
        · simp only [bm25Scan, if_neg hp, heq]
          simp [contribSum, matchRefs, hp]
        · simp [pShape, hsh]

/-- Shape-level evolution of the index across a scorer run over the term
list L: postings keep everything except their score, and exactly the
missing terms of L are inserted with an empty list. -/
def EvolveShape (L : List String) (idx0 idx2 : Index) : Prop :=
  (∀ u ps0, lookupIdx idx0 u = some ps0 →
    ∃ ps2, lookupIdx idx2 u = some ps2 ∧ ps2.map pShape = ps0.map pShape) ∧
  (∀ u, lookupIdx idx0 u = none → u ∈ L → lookupIdx idx2 u = some []) ∧
  (∀ u, lookupIdx idx0 u = none → u ∉ L → lookupIdx idx2 u = none)

theorem evolveShape_getD_shape (L : List String) (idx0 idx2 : Index)
    (h : EvolveShape L idx0 idx2) (u : String) (hu : u ∈ L) :
    ((lookupIdx idx2 u).getD []).map pShape = ((lookupIdx idx0 u).getD []).map pShape := by
  cases h0 : lookupIdx idx0 u with
  | some ps0 =>
      obtain ⟨ps2, h2, hsh⟩ := h.1 u ps0 h0
      simp [h2, hsh]
  | none =>
      have h2 := h.2.1 u h0 hu
      simp [h2]

theorem matchRefs_congr (t docId : String) :
    ∀ (ps1 ps2 : List Posting) (i : Nat),
      ps1.map pShape = ps2.map pShape →
      matchRefs t docId ps1 i = matchRefs t docId ps2 i := by
  intro ps1
  induction ps1 with
  | nil =>
      intro ps2 i h
      cases ps2 with
      | nil => rfl
      | cons q qs => simp at h
  | cons p rest ih =>
      intro ps2 i h
      cases ps2 with
      | nil => simp at h
      | cons q qs =>
          simp only [List.map_cons, List.cons.injEq] at h
          have hdoc : p.doc_id = q.doc_id := congrArg (fun s => s.1) h.1
          by_cases hp : p.doc_id = docId
          · rw [matchRefs, matchRefs, if_pos hp, if_pos (hdoc ▸ hp), ih qs (i + 1) h.2]
          · rw [matchRefs, matchRefs, if_neg hp, if_neg (hdoc ▸ hp), ih qs (i + 1) h.2]

theorem bm25TermsFold_char (docId : String) (nDocs collLen : Nat) (avgdl : ℝ)
    (q : List String) :
    ∀ (L : List String) (idx : Index) (acc : ℝ) (refs : List Ref),
      L.Nodup →
      (∀ t ∈ L, (((lookupIdx idx t).getD []) ≠ [] → collLen ≠ 0) ∧
        ((lookupIdx idx t).getD []).length ≤ nDocs) →
      ∃ idx2, bm25TermsFold docId nDocs collLen avgdl q L idx acc refs =
          some (idx2,
            acc + (L.map (fun t => contribSum docId nDocs
              ((lookupIdx idx t).getD []).length (q.count t) avgdl
              ((lookupIdx idx t).getD []))).sum,
            refs ++ L.flatMap (fun t => matchRefs t docId ((lookupIdx idx t).getD []) 0)) ∧
        EvolveShape L idx idx2 := by
  intro L
  induction L with
  | nil =>
      intro idx acc refs _ _
      refine ⟨idx, by simp [bm25TermsFold], ?_, ?_, ?_⟩
      · intro u ps0 h0; exact ⟨ps0, h0, rfl⟩
      · intro u _ hu; simp at hu
      · intro u h0 _; exact h0
  | cons t rest ih =>
      intro idx acc refs hnd hg
      have hnd2 := List.nodup_cons.mp hnd
      obtain ⟨ps2, hscan, hsh⟩ := bm25Scan_char docId t nDocs
        ((lookupIdx idx t).getD []).length (q.count t) collLen avgdl
        ((lookupIdx idx t).getD []) 0 acc refs
        (fun p hp _ => ⟨(hg t (List.mem_cons_self t rest)).1
            (fun hnil => by simp [hnil] at hp),
          (hg t (List.mem_cons_self t rest)).2⟩)
      have hfst := getDflt_fst idx t
      have hup_t : lookupIdx (setList (getDflt idx t).2 t ps2) t = some ps2 := by
        apply setList_lookup_self
        rw [getDflt_snd_lookup, if_pos rfl]
        exact Option.isSome_some
      have hup_o : ∀ u, u ≠ t →
          lookupIdx (setList (getDflt idx t).2 t ps2) u = lookupIdx idx u := by
        intro u hu
        rw [setList_lookup_other _ _ _ _ hu, getDflt_snd_lookup, if_neg hu]
      obtain ⟨idx2, hfold, hev⟩ := ih (setList (getDflt idx t).2 t ps2) (acc +
          contribSum docId nDocs ((lookupIdx idx t).getD []).length (q.count t) avgdl
          ((lookupIdx idx t).getD []))
        (refs ++ matchRefs t docId ((lookupIdx idx t).getD []) 0) hnd2.2
        (by
          intro u hu
          rw [hup_o u (fun h => hnd2.1 (h ▸ hu))]
          exact hg u (List.mem_cons_of_mem t hu))
      refine ⟨idx2, ?_, ?_, ?_, ?_⟩
      · show (match bm25Scan docId nDocs (getDflt idx t).1.length (q.count t) collLen avgdl t
            (getDflt idx t).1 0 acc refs with
          | none => none
          | some (ps', acc', refs') =>
              bm25TermsFold docId nDocs collLen avgdl q rest
                (setList (getDflt idx t).2 t ps') acc' refs') = _
        rw [hfst, hscan]
        dsimp only
        rw [hfold]
        have hmap : rest.map (fun u => contribSum docId nDocs
              ((lookupIdx (setList (getDflt idx t).2 t ps2) u).getD []).length (q.count u)
              avgdl ((lookupIdx (setList (getDflt idx t).2 t ps2) u).getD [])) =
            rest.map (fun u => contribSum docId nDocs
              ((lookupIdx idx u).getD []).length (q.count u) avgdl
              ((lookupIdx idx u).getD [])) := by
          apply List.map_congr_left
          intro u hu
          rw [hup_o u (fun h => hnd2.1 (h ▸ hu))]
        have hfm : rest.flatMap (fun u => matchRefs u docId
              ((lookupIdx (setList (getDflt idx t).2 t ps2) u).getD []) 0) =
            rest.flatMap (fun u => matchRefs u docId ((lookupIdx idx u).getD []) 0) := by
          apply List.flatMap_congr
          intro u hu
          rw [hup_o u (fun h => hnd2.1 (h ▸ hu))]
        rw [hmap, hfm]
        simp [add_assoc]
      · intro u ps0 h0
        by_cases hu : u = t
        · subst hu
          have : ps2.map pShape = ps0.map pShape := by
            rw [hsh, h0]
            simp
          obtain ⟨ps3, h3, hsh3⟩ := hev.1 u ps2 hup_t
          exact ⟨ps3, h3, hsh3.trans this⟩
        · obtain ⟨ps3, h3, hsh3⟩ := hev.1 u ps0 (by rw [hup_o u hu]; exact h0)
          exact ⟨ps3, h3, hsh3⟩
      · intro u h0 hu
        by_cases hut : u = t
        · subst hut
          have hnil : ps2 = [] := by
            rw [h0] at hsh
            simp only [Option.getD_none, List.map_nil] at hsh
            exact List.map_eq_nil_iff.mp hsh
          obtain ⟨ps3, h3, hsh3⟩ := hev.1 u ps2 hup_t
          rw [hnil] at hsh3
          simp only [List.map_nil] at hsh3
          rw [h3, List.map_eq_nil_iff.mp hsh3]
        · have hur : u ∈ rest := by
            rcases List.mem_cons.mp hu with h | h
            · exact absurd h hut
            · exact h
          exact hev.2.1 u (by rw [hup_o u hut]; exact h0) hur
      · intro u h0 hu
        have hut : u ≠ t := fun h => hu (h ▸ List.mem_cons_self t rest)
        exact hev.2.2 u (by rw [hup_o u hut]; exact h0)
          (fun h => hu (List.mem_cons_of_mem t h))

theorem uniqueQueryTerms_nodup_aux (q : List String) :
    ∀ acc : List String, acc.Nodup →
      (q.foldl (fun acc t => if t ∈ acc then acc else acc ++ [t]) acc).Nodup := by
  induction q with
  | nil => intro acc h; simpa using h
  | cons t rest ih =>
      intro acc h
      by_cases ht : t ∈ acc
      · simpa [List.foldl_cons, ht] using ih acc h
      · have hnd : (acc ++ [t]).Nodup := by
          simp [List.nodup_append, h, ht]
        simpa [List.foldl_cons, ht] using ih (acc ++ [t]) hnd

theorem uniqueQueryTerms_nodup (q : List String) : (uniqueQueryTerms q).Nodup :=
  uniqueQueryTerms_nodup_aux q [] List.nodup_nil

/-- Weak form of the shape evolution: missing terms of L may or may not
have been inserted yet (no document processed inserts nothing). -/
def EvolveShapeW (L : List String) (idx0 idx2 : Index) : Prop :=
  (∀ u ps0, lookupIdx idx0 u = some ps0 →
    ∃ ps2, lookupIdx idx2 u = some ps2 ∧ ps2.map pShape = ps0.map pShape) ∧
  (∀ u, lookupIdx idx0 u = none → u ∈ L →
    (lookupIdx idx2 u = some [] ∨ lookupIdx idx2 u = none)) ∧
  (∀ u, lookupIdx idx0 u = none → u ∉ L → lookupIdx idx2 u = none)

theorem evolveShape_weaken (L : List String) (a c : Index)
    (h : EvolveShape L a c) : EvolveShapeW L a c :=
  ⟨h.1, fun u h0 hu => Or.inl (h.2.1 u h0 hu), h.2.2⟩

theorem evolveShapeW_refl (L : List String) (a : Index) : EvolveShapeW L a a :=
  ⟨fun u ps0 h0 => ⟨ps0, h0, rfl⟩, fun u h0 _ => Or.inr h0, fun u h0 _ => h0⟩

theorem evolveShapeW_trans (L : List String) (a c e : Index)
    (h1 : EvolveShapeW L a c) (h2 : EvolveShapeW L c e) : EvolveShapeW L a e := by
  refine ⟨?_, ?_, ?_⟩
  · intro u ps0 h0
    obtain ⟨ps1, hc, hsh1⟩ := h1.1 u ps0 h0
    obtain ⟨ps3, he, hsh3⟩ := h2.1 u ps1 hc
    exact ⟨ps3, he, hsh3.trans hsh1⟩
  · intro u h0 hu
    rcases h1.2.1 u h0 hu with hc | hc
    · obtain ⟨ps3, he, hsh3⟩ := h2.1 u [] hc
      simp only [List.map_nil] at hsh3
      rw [he, List.map_eq_nil_iff.mp hsh3]
      exact Or.inl rfl
    · exact h2.2.1 u hc hu
  · intro u h0 hu
    exact h2.2.2 u (h1.2.2 u h0 hu) hu

theorem evolveShape_strong_trans (L : List String) (a c e : Index)
    (h1 : EvolveShape L a c) (h2 : EvolveShapeW L c e) : EvolveShape L a e := by
  refine ⟨?_, ?_, ?_⟩
  · intro u ps0 h0
    obtain ⟨ps1, hc, hsh1⟩ := h1.1 u ps0 h0
    obtain ⟨ps3, he, hsh3⟩ := h2.1 u ps1 hc
    exact ⟨ps3, he, hsh3.trans hsh1⟩
  · intro u h0 hu
    have hc := h1.2.1 u h0 hu
    obtain ⟨ps3, he, hsh3⟩ := h2.1 u [] hc
    simp only [List.map_nil] at hsh3
    rw [he, List.map_eq_nil_iff.mp hsh3]
  · intro u h0 hu
    exact h2.2.2 u (h1.2.2 u h0 hu) hu

theorem evolveShapeW_getD_shape (L : List String) (idx0 idx2 : Index)
    (h : EvolveShapeW L idx0 idx2) (u : String) (hu : u ∈ L) :
    ((lookupIdx idx2 u).getD []).map pShape = ((lookupIdx idx0 u).getD []).map pShape := by
  cases h0 : lookupIdx idx0 u with
  | some ps0 =>
      obtain ⟨ps2, h2, hsh⟩ := h.1 u ps0 h0
      simp [h2, hsh]
  | none =>
      rcases h.2.1 u h0 hu with h2 | h2 <;> simp [h2]

theorem evolveShape_trans (L : List String) (a c e : Index)
    (h1 : EvolveShape L a c) (h2 : EvolveShape L c e) : EvolveShape L a e := by
  refine ⟨?_, ?_, ?_⟩
  · intro u ps0 h0
    obtain ⟨ps1, hc, hsh1⟩ := h1.1 u ps0 h0
    obtain ⟨ps3, he, hsh3⟩ := h2.1 u ps1 hc
    exact ⟨ps3, he, hsh3.trans hsh1⟩
  · intro u h0 hu
    have hc := h1.2.1 u h0 hu
    obtain ⟨ps3, he, hsh3⟩ := h2.1 u [] hc
    simp only [List.map_nil] at hsh3
    rw [he, List.map_eq_nil_iff.mp hsh3]
  · intro u h0 hu
    exact h2.2.2 u (h1.2.2 u h0 hu) hu

theorem bm25DocsFold_char (nDocs collLen : Nat) (avgdl : ℝ) (q : List String) :
    ∀ (docs : List Doc) (idx : Index) (refs : List Ref),
      (∀ t ∈ uniqueQueryTerms q, (((lookupIdx idx t).getD []) ≠ [] → collLen ≠ 0) ∧
        ((lookupIdx idx t).getD []).length ≤ nDocs) →
      ∃ idx2, bm25DocsFold nDocs collLen avgdl q docs idx refs =
          some (idx2,
            refs ++ docs.flatMap (fun d => (uniqueQueryTerms q).flatMap
              (fun t => matchRefs t d.sceneId ((lookupIdx idx t).getD []) 0))) ∧
        EvolveShapeW (uniqueQueryTerms q) idx idx2 := by
  intro docs
  induction docs with
  | nil =>
      intro idx refs _
      exact ⟨idx, by simp [bm25DocsFold], evolveShapeW_refl _ idx⟩
  | cons d rest ih =>
      intro idx refs hg
      obtain ⟨idx1, hfold, hev⟩ := bm25TermsFold_char d.sceneId nDocs collLen avgdl q
        (uniqueQueryTerms q) idx 0 refs (uniqueQueryTerms_nodup q) hg
      obtain ⟨idx2, hfold2, hev2⟩ := ih idx1
        (refs ++ (uniqueQueryTerms q).flatMap
          (fun t => matchRefs t d.sceneId ((lookupIdx idx t).getD []) 0))
        (by
          intro t ht
          have hshape := evolveShape_getD_shape _ _ _ hev t ht
          have hlen : ((lookupIdx idx1 t).getD []).length =
              ((lookupIdx idx t).getD []).length := by
            have := congrArg List.length hshape
            simpa using this
          constructor
          · intro hne
            apply (hg t ht).1
            intro hnil
            rw [hnil] at hshape
            simp only [List.map_nil] at hshape
            exact hne (List.map_eq_nil_iff.mp hshape)
          · rw [hlen]; exact (hg t ht).2)
      refine ⟨idx2, ?_, evolveShapeW_trans _ _ _ _ (evolveShape_weaken _ _ _ hev) hev2⟩
      show (match bm25TermsFold d.sceneId nDocs collLen avgdl q (uniqueQueryTerms q)
          idx 0 refs with
        | none => none
        | some (idx', _, refs') => bm25DocsFold nDocs collLen avgdl q rest idx' refs') = _
      rw [hfold]
      dsimp only
      rw [hfold2]
      have hfm : rest.flatMap (fun e => (uniqueQueryTerms q).flatMap
            (fun t => matchRefs t e.sceneId ((lookupIdx idx1 t).getD []) 0)) =
          rest.flatMap (fun e => (uniqueQueryTerms q).flatMap
            (fun t => matchRefs t e.sceneId ((lookupIdx idx t).getD []) 0)) := by
        apply List.flatMap_congr
        intro e _
        apply List.flatMap_congr
        intro t ht
        exact matchRefs_congr t e.sceneId _ _ 0 (evolveShape_getD_shape _ _ _ hev t ht)
      rw [hfm]
      simp

theorem bm25DocsFold_char_cons (nDocs collLen : Nat) (avgdl : ℝ) (q : List String)
    (d : Doc) (rest : List Doc) (idx : Index) (refs : List Ref)
    (hg : ∀ t ∈ uniqueQueryTerms q, (((lookupIdx idx t).getD []) ≠ [] → collLen ≠ 0) ∧
      ((lookupIdx idx t).getD []).length ≤ nDocs) :
    ∃ idx2, bm25DocsFold nDocs collLen avgdl q (d :: rest) idx refs =
        some (idx2,
          refs ++ (d :: rest).flatMap (fun e => (uniqueQueryTerms q).flatMap
            (fun t => matchRefs t e.sceneId ((lookupIdx idx t).getD []) 0))) ∧
      EvolveShape (uniqueQueryTerms q) idx idx2 := by
  obtain ⟨idx1, hfold1, hev1⟩ := bm25TermsFold_char d.sceneId nDocs collLen avgdl q
    (uniqueQueryTerms q) idx 0 refs (uniqueQueryTerms_nodup q) hg
  obtain ⟨idx2, hfoldd, hevd⟩ := bm25DocsFold_char nDocs collLen avgdl q rest idx1
    (refs ++ (uniqueQueryTerms q).flatMap
      (fun t => matchRefs t d.sceneId ((lookupIdx idx t).getD []) 0))
    (by
      intro t ht
      have hshape := evolveShape_getD_shape _ _ _ hev1 t ht
      have hlen : ((lookupIdx idx1 t).getD []).length =
          ((lookupIdx idx t).getD []).length := by
        have := congrArg List.length hshape
        simpa using this
      constructor
      · intro hne
        apply (hg t ht).1
        intro hnil
        rw [hnil] at hshape
        simp only [List.map_nil] at hshape
        exact hne (List.map_eq_nil_iff.mp hshape)
      · rw [hlen]; exact (hg t ht).2)
  refine ⟨idx2, ?_, evolveShape_strong_trans _ _ _ _ hev1 hevd⟩
  show (match bm25TermsFold d.sceneId nDocs collLen avgdl q (uniqueQueryTerms q)
      idx 0 refs with
    | none => none
    | some (idx', _, refs') => bm25DocsFold nDocs collLen avgdl q rest idx' refs') = _
  rw [hfold1]
  dsimp only
  rw [hfoldd]
  have hfm : rest.flatMap (fun e => (uniqueQueryTerms q).flatMap
        (fun t => matchRefs t e.sceneId ((lookupIdx idx1 t).getD []) 0)) =
      rest.flatMap (fun e => (uniqueQueryTerms q).flatMap
        (fun t => matchRefs t e.sceneId ((lookupIdx idx t).getD []) 0)) := by
    apply List.flatMap_congr
    intro e _
    apply List.flatMap_congr
    intro t ht
    exact matchRefs_congr t e.sceneId _ _ 0 (evolveShape_getD_shape _ _ _ hev1 t ht)
  rw [hfm]
  simp

/-- The final value of the per-document score accumulator of
bm25_ranking for one document of the corpus: the query-term loop run for
that document against the given index (lines 110 through 123 of the
source), projected to the accumulator. -/
noncomputable def bm25DocScore (idx : Index) (q : List String) (nDocs collLen : Nat)
    (docId : String) : Option ℝ :=
  (bm25TermsFold docId nDocs collLen ((collLen : ℝ) / (nDocs : ℝ)) q
    (uniqueQueryTerms q) idx 0 []).map (fun r => r.2.1)

theorem filter_text_sceneId (t : String) (corpus : List Doc) (d : Doc)
    (hd : d ∈ corpus) (hnd : (corpus.map (fun e => e.sceneId)).Nodup) :
    corpus.filter (fun e => decide (t ∈ e.text) && decide (e.sceneId = d.sceneId)) =
      if t ∈ d.text then [d] else [] := by
  induction corpus with
  | nil => cases hd
  | cons c rest ih =>
      rw [List.map_cons, List.nodup_cons] at hnd
      rcases List.mem_cons.mp hd with rfl | hdr
      · have hrest : rest.filter
            (fun e => decide (t ∈ e.text) && decide (e.sceneId = d.sceneId)) = [] := by
          apply List.filter_eq_nil_iff.mpr
          intro e he
          simp only [Bool.and_eq_true, decide_eq_true_eq, not_and]
          intro _ hse
          exact hnd.1 (hse ▸ List.mem_map_of_mem _ he)
        rw [List.filter_cons]
        by_cases hm : t ∈ d.text <;> simp [hm, hrest]
      · have hcd : ¬ c.sceneId = d.sceneId := by
          intro h
          exact hnd.1 (h ▸ List.mem_map_of_mem _ hdr)
        rw [List.filter_cons]
        simp [hcd, ih hdr hnd.2]

theorem contribSum_postList (t : String) (nDocs n0 ni qfi : Nat) (avgdl : ℝ)
    (corpus : List Doc) (d : Doc) (hd : d ∈ corpus)
    (hnd : (corpus.map (fun e => e.sceneId)).Nodup) :
    contribSum d.sceneId nDocs ni qfi avgdl (postList t n0 corpus) =
      if t ∈ d.text then
        bm25Contrib nDocs ni qfi (d.text.count t) d.text.length avgdl
      else 0 := by
  unfold contribSum postList
  rw [List.filter_map, List.filter_filter]
  have hfc : List.filter (fun a => ((fun p => decide (p.doc_id = d.sceneId)) ∘
        mkPosting t n0) a && decide (t ∈ a.text)) corpus =
      List.filter (fun e => decide (t ∈ e.text) && decide (e.sceneId = d.sceneId))
        corpus := by
    apply List.filter_congr
    intro a _
    simp [mkPosting, Bool.and_comm]
  rw [hfc, filter_text_sceneId t corpus d hd hnd]
  by_cases hm : t ∈ d.text <;> simp [hm, mkPosting, posOf_length]

theorem built_guard (corpus : List Doc) :
    ∀ (t : String), (((lookupIdx (build_index corpus).1 t).getD []) ≠ [] →
      (build_index corpus).2.1 ≠ 0) ∧
      ((lookupIdx (build_index corpus).1 t).getD []).length ≤ corpus.length := by
  intro t
  obtain ⟨hidx, hlen, _⟩ := build_index_char corpus
  rw [hidx t]
  by_cases hany : corpus.any (fun d => t ∈ d.text) = true
  · rw [if_pos hany]
    obtain ⟨e, he, hem⟩ : ∃ e ∈ corpus, t ∈ e.text := by
      simpa [List.any_eq_true] using hany
    constructor
    · intro _ h0
      have hsum : (corpus.map (fun d => d.text.length)).sum = 0 := by
        rw [← hlen]; exact h0
      have hle : e.text.length ≤ (corpus.map (fun d => d.text.length)).sum :=
        List.single_le_sum (fun _ _ => Nat.zero_le _) _ (List.mem_map_of_mem _ he)
      have hpos : 0 < e.text.length := List.length_pos.mpr (List.ne_nil_of_mem hem)
      omega
    · simp only [Option.getD_some, postList, List.length_map]
      exact List.length_filter_le _ _
  · rw [if_neg hany]
    simp

theorem idf_neg_of_majority (nD ni : Nat) (h1 : ni ≤ nD) (h2 : nD < 2 * ni) :
    idf nD ni < 0 := by
  unfold idf
  apply Real.log_neg
  · apply div_pos
    · have hc : (ni : ℝ) ≤ (nD : ℝ) := by exact_mod_cast h1
      linarith
    · positivity
  · rw [div_lt_one (by positivity)]
    have hc : (nD : ℝ) < 2 * (ni : ℝ) := by exact_mod_cast h2
    linarith

theorem resolveRefs_append (idx : Index) (r1 r2 : List Ref) :
    resolveRefs idx (r1 ++ r2) = resolveRefs idx r1 ++ resolveRefs idx r2 :=
  List.filterMap_append r1 r2 _

theorem resolveRefs_matchRefs (idx2 : Index) (t docId : String) (ps2 : List Posting)
    (hlook : lookupIdx idx2 t = some ps2) :
    ∀ (l : List Posting) (i0 : Nat),
      (∀ j, j < l.length → ∃ p2, ps2[i0 + j]? = some p2 ∧
        ∀ hj : j < l.length, p2.doc_id = (l.get ⟨j, hj⟩).doc_id) →
      (resolveRefs idx2 (matchRefs t docId l i0)).map (fun p => p.doc_id) =
        List.replicate ((l.filter (fun p => p.doc_id = docId)).length) docId := by
  intro l
  induction l with
  | nil => intro i0 _; simp [matchRefs, resolveRefs]
  | cons p l ih =>
      intro i0 hj
      obtain ⟨p2, hp2, hdoc⟩ := hj 0 (by simp)
      have hdoc0 : p2.doc_id = p.doc_id := by simpa using hdoc (by simp)
      have hshift : ∀ j, j < l.length → ∃ q2, ps2[(i0 + 1) + j]? = some q2 ∧
          ∀ hjj : j < l.length, q2.doc_id = (l.get ⟨j, hjj⟩).doc_id := by
        intro j hjl
        obtain ⟨q2, hq2, hq⟩ := hj (j + 1) (by simpa using Nat.succ_lt_succ hjl)
        refine ⟨q2, ?_, ?_⟩
        · rw [← hq2]
          congr 1
          omega
        · intro hjj
          have := hq (by simpa using Nat.succ_lt_succ hjj)
          simpa using this
      by_cases hp : p.doc_id = docId
      · rw [matchRefs, if_pos hp]
        have hres : resolveRefs idx2 ((t, i0) :: matchRefs t docId l (i0 + 1)) =
            p2 :: resolveRefs idx2 (matchRefs t docId l (i0 + 1)) := by
          unfold resolveRefs
          rw [List.filterMap_cons]
          simp only [hlook, Option.bind_some]
          rw [show i0 + 0 = i0 from rfl] at hp2
          simp [hp2]
        rw [hres]
        simp only [List.map_cons, ih (i0 + 1) hshift]
        rw [List.filter_cons, if_pos (by simpa using hp)]
        simp [hdoc0.trans hp, List.replicate_succ]
      · rw [matchRefs, if_neg hp]
        rw [ih (i0 + 1) hshift]
        rw [List.filter_cons, if_neg (by simpa using hp)]

theorem resolved_doc_ids (idx0 idx2 : Index) (L : List String)
    (hev : EvolveShape L idx0 idx2) (t : String) (ht : t ∈ L) (sid : String) :
    (resolveRefs idx2 (matchRefs t sid ((lookupIdx idx0 t).getD []) 0)).map
        (fun p => p.doc_id) =
      List.replicate
        ((((lookupIdx idx0 t).getD []).filter (fun p => p.doc_id = sid)).length) sid := by
  cases h0 : lookupIdx idx0 t with
  | none => simp [matchRefs, resolveRefs]
  | some ps0 =>
      obtain ⟨ps2, h2, hsh⟩ := hev.1 t ps0 h0
      have hdocs : ps2.map (fun p => p.doc_id) = ps0.map (fun p => p.doc_id) := by
        have h1 := congrArg (List.map (fun s => s.1)) hsh
        simpa [pShape, Function.comp] using h1
      have hlen : ps2.length = ps0.length := by
        have := congrArg List.length hsh
        simpa using this
      simp only [Option.getD_some]
      apply resolveRefs_matchRefs idx2 t sid ps2 h2
      intro j hjl
      have hj2 : j < ps2.length := by omega
      refine ⟨ps2.get ⟨j, hj2⟩, ?_, ?_⟩
      · simp [List.getElem?_eq_getElem hj2]
      · intro hj
        have := congrArg (fun l => l[j]?) hdocs
        simp only [List.getElem?_map] at this
        rw [List.getElem?_eq_getElem hj2, List.getElem?_eq_getElem hjl] at this
        simpa using this

theorem flatMap_replicate_ite (sid : String) (txt : List String) (L : List String) :
    L.flatMap (fun t => List.replicate (if t ∈ txt then 1 else 0) sid) =
      (L.filter (fun t => t ∈ txt)).map (fun _ => sid) := by
  induction L with
  | nil => simp
  | cons t rest ih =>
      by_cases hm : t ∈ txt <;>
        simp [List.filter_cons, hm, ih]

theorem postList_filter_length (t : String) (n0 : Nat) (corpus : List Doc) (d : Doc)
    (hd : d ∈ corpus) (hnd : (corpus.map (fun e => e.sceneId)).Nodup) :
    ((postList t n0 corpus).filter (fun p => p.doc_id = d.sceneId)).length =
      if t ∈ d.text then 1 else 0 := by
  unfold postList
  rw [List.filter_map, List.filter_filter]
  have hfc : List.filter (fun a => ((fun p => decide (p.doc_id = d.sceneId)) ∘
        mkPosting t n0) a && decide (t ∈ a.text)) corpus =
      List.filter (fun e => decide (t ∈ e.text) && decide (e.sceneId = d.sceneId))
        corpus := by
    apply List.filter_congr
    intro a _
    simp [mkPosting, Bool.and_comm]
  rw [hfc, filter_text_sceneId t corpus d hd hnd]
  by_cases hm : t ∈ d.text <;> simp [hm]

theorem resolveRefs_flatMap {α : Type} (idx : Index) (l : List α) (F : α → List Ref) :
    resolveRefs idx (l.flatMap F) = l.flatMap (fun a => resolveRefs idx (F a)) := by
  unfold resolveRefs
  exact List.filterMap_bind l F _

theorem bm25DocScore_built (corpus : List Doc) (q : List String) (d : Doc)
    (hd : d ∈ corpus) (hnd : (corpus.map (fun e => e.sceneId)).Nodup) :
    bm25DocScore (build_index corpus).1 q corpus.length (build_index corpus).2.1
        d.sceneId =
      some (((uniqueQueryTerms q).map (fun t =>
        if t ∈ d.text then
          idf corpus.length ((lookupIdx (build_index corpus).1 t).getD []).length *
            tfWeight (d.text.count t) (Kfac d.text.length
              (((build_index corpus).2.1 : ℝ) / (corpus.length : ℝ))) *
            qtfWeight (q.count t)
        else 0)).sum) := by
  obtain ⟨idx2, hfold, _⟩ := bm25TermsFold_char d.sceneId corpus.length
    (build_index corpus).2.1 (((build_index corpus).2.1 : ℝ) / (corpus.length : ℝ)) q
    (uniqueQueryTerms q) (build_index corpus).1 0 [] (uniqueQueryTerms_nodup q)
    (fun t _ => built_guard corpus t)
  unfold bm25DocScore
  rw [hfold]
  simp only [Option.map_some']
  congr 1
  rw [zero_add]
  apply congrArg List.sum
  apply List.map_congr_left
  intro t _
  obtain ⟨hidx, _, _⟩ := build_index_char corpus
  rw [hidx t]
  by_cases hany : corpus.any (fun e => t ∈ e.text) = true
  · rw [if_pos hany]
    simp only [Option.getD_some]
    rw [contribSum_postList t corpus.length corpus.length
      (postList t corpus.length corpus).length (q.count t)
      (((build_index corpus).2.1 : ℝ) / (corpus.length : ℝ)) corpus d hd hnd]
    unfold bm25Contrib
    rfl
  · rw [if_neg hany]
    have hnm : t ∉ d.text := by
      intro hmem
      exact hany (by simp only [List.any_eq_true, decide_eq_true_eq]; exact ⟨d, hd, hmem⟩)
    simp [contribSum, hnm]

theorem uniqueQueryTerms_mem_aux (q : List String) :
    ∀ (acc : List String) (t : String),
      t ∈ q.foldl (fun acc t => if t ∈ acc then acc else acc ++ [t]) acc ↔
        t ∈ acc ∨ t ∈ q := by
  induction q with
  | nil => intro acc t; simp
  | cons s rest ih =>
      intro acc t
      by_cases hs : s ∈ acc
      · rw [List.foldl_cons, if_pos hs, ih acc t]
        constructor
        · rintro (h | h)
          · exact Or.inl h
          · exact Or.inr (List.mem_cons_of_mem s h)
        · rintro (h | h)
          · exact Or.inl h
          · rcases List.mem_cons.mp h with rfl | h
            · exact Or.inl hs
            · exact Or.inr h
      · rw [List.foldl_cons, if_neg hs, ih (acc ++ [s]) t]
        simp only [List.mem_append, List.mem_singleton, List.mem_cons]
        tauto

theorem uniqueQueryTerms_mem (q : List String) (t : String) :
    t ∈ uniqueQueryTerms q ↔ t ∈ q := by
  unfold uniqueQueryTerms
  rw [uniqueQueryTerms_mem_aux q [] t]
  simp

theorem uniqueQueryTerms_ne_nil (q : List String) (hq : q ≠ []) :
    uniqueQueryTerms q ≠ [] := by
  cases q with
  | nil => exact absurd rfl hq
  | cons a rest =>
      intro h
      have : a ∈ uniqueQueryTerms (a :: rest) :=
        (uniqueQueryTerms_mem _ a).mpr (List.mem_cons_self a rest)
      rw [h] at this
      exact absurd this (List.not_mem_nil a)

theorem Kfac_pos (dl : Nat) (avgdl : ℝ) (h : 0 < avgdl) : 0 < Kfac dl avgdl := by
  unfold Kfac k1 b
  have h0 : (0 : ℝ) ≤ (dl : ℝ) / avgdl := div_nonneg (by positivity) h.le
  nlinarith

theorem idf_pos_of_minority (nD ni : Nat) (h : 2 * ni < nD) : 0 < idf nD ni := by
  unfold idf
  apply Real.log_pos
  rw [lt_div_iff (by positivity)]
  have hc : 2 * (ni : ℝ) < (nD : ℝ) := by exact_mod_cast h
  linarith

theorem tfWeight_pos (fi : Nat) (K : ℝ) (hK : 0 < K) (hfi : 1 ≤ fi) :
    0 < tfWeight fi K := by
  unfold tfWeight k1
  have hc : (1 : ℝ) ≤ (fi : ℝ) := by exact_mod_cast hfi
  apply div_pos <;> nlinarith

theorem tfWeight_strictMono (a c : Nat) (K : ℝ) (hK : 0 < K) (h : a < c) :
    tfWeight a K < tfWeight c K := by
  unfold tfWeight k1
  have hc : (a : ℝ) < (c : ℝ) := by exact_mod_cast h
  have ha : (0 : ℝ) ≤ (a : ℝ) := by positivity
  rw [div_lt_div_iff (by nlinarith) (by nlinarith)]
  nlinarith

theorem qtfWeight_pos (qfi : Nat) (h : 1 ≤ qfi) : 0 < qtfWeight qfi := by
  unfold qtfWeight k2
  have hc : (1 : ℝ) ≤ (qfi : ℝ) := by exact_mod_cast h
  apply div_pos <;> nlinarith

theorem built_collLen_pos (corpus : List Doc) (d : Doc) (hd : d ∈ corpus)
    (hne : d.text ≠ []) : 0 < (build_index corpus).2.1 := by
  obtain ⟨_, hlen, _⟩ := build_index_char corpus
  rw [hlen]
  have hle : d.text.length ≤ (corpus.map (fun e => e.text.length)).sum :=
    List.single_le_sum (fun _ _ => Nat.zero_le _) _ (List.mem_map_of_mem _ hd)
  have hpos : 0 < d.text.length := List.length_pos.mpr hne
  omega

theorem scoreDescLe_trans : ∀ (a c e : Posting),
    scoreDescLe a c → scoreDescLe c e → scoreDescLe a e := by
  intro a c e h1 h2
  simp only [scoreDescLe, decide_eq_true_eq] at h1 h2 ⊢
  exact le_trans h2 h1

theorem scoreDescLe_total : ∀ (a c : Posting), scoreDescLe a c || scoreDescLe c a := by
  intro a c
  simp only [scoreDescLe]
  rcases le_total a.score c.score with h | h <;> simp [h]

/-- The per-posting score update applied by the QL posting scan: add one
smoothing contribution onto the stored score. -/
noncomputable def qlUpd (docId : String) (cqiT collLen : Nat) (p : Posting) : Posting :=
  { p with
    score := p.score +
      qlContrib cqiT collLen (if p.doc_id = docId then p.termCount else 0) p.docLen }

theorem qlScan_char (docId t : String) (cqiT collLen : Nat) (hc : collLen ≠ 0)
    (hq : cqiT ≠ 0) :
    ∀ (ps : List Posting) (i : Nat) (refs : List Ref),
      qlScan docId cqiT collLen t ps i refs =
        some (ps.map (qlUpd docId cqiT collLen), refs ++ seqRefs t ps i) := by
  intro ps
  induction ps with
  | nil => intro i refs; simp [qlScan, seqRefs]
  | cons p rest ih =>
      intro i refs
      show (if collLen = 0 then none
        else if (if p.doc_id = docId then p.termCount else 0) = 0 ∧ cqiT = 0 then none
        else
          match qlScan docId cqiT collLen t rest (i + 1) (refs ++ [(t, i)]) with
          | none => none
          | some (rest2, refs2) =>
              some ({ p with
                score := p.score + qlContrib cqiT collLen
                  (if p.doc_id = docId then p.termCount else 0) p.docLen } :: rest2,
                refs2)) = _
      rw [if_neg hc, if_neg (by simp [hq]), ih (i + 1) (refs ++ [(t, i)])]
      simp [seqRefs, qlUpd]

theorem update_shapes (docId : String) (cqiT collLen : Nat) (ps : List Posting) :
    (ps.map (qlUpd docId cqiT collLen)).map pShape = ps.map pShape := by
  rw [List.map_map]
  apply List.map_congr_left
  intro p _
  rfl

theorem qlTermStep_nil (docId : String) (collLen : Nat) (cqi : Cqi) (idx : Index)
    (refs : List Ref) (t : String) (hps : (lookupIdx idx t).getD [] = []) :
    qlTermStep docId collLen cqi (idx, refs) t = some ((getDflt idx t).2, refs) := by
  show (match (getDflt idx t).1 with
    | [] => some ((getDflt idx t).2, refs)
    | _ =>
      match lookupCqi cqi t with
      | none => none
      | some cqiT =>
        match qlScan docId cqiT collLen t (getDflt idx t).1 0 refs with
        | none => none
        | some (ps2, refs2) => some (setList (getDflt idx t).2 t ps2, refs2)) = _
  rw [show (getDflt idx t).1 = [] from (getDflt_fst idx t).trans hps]

theorem qlTermStep_cons (docId : String) (collLen : Nat) (cqi : Cqi) (idx : Index)
    (refs : List Ref) (t : String) (p0 : Posting) (tail : List Posting)
    (hps : (lookupIdx idx t).getD [] = p0 :: tail)
    (c : Nat) (hcqi : lookupCqi cqi t = some c) (hc : collLen ≠ 0) (hcne : c ≠ 0) :
    qlTermStep docId collLen cqi (idx, refs) t =
      some (setList (getDflt idx t).2 t
        (((lookupIdx idx t).getD []).map (qlUpd docId c collLen)),
        refs ++ seqRefs t ((lookupIdx idx t).getD []) 0) := by
  show (match (getDflt idx t).1 with
    | [] => some ((getDflt idx t).2, refs)
    | _ =>
      match lookupCqi cqi t with
      | none => none
      | some cqiT =>
        match qlScan docId cqiT collLen t (getDflt idx t).1 0 refs with
        | none => none
        | some (ps2, refs2) => some (setList (getDflt idx t).2 t ps2, refs2)) = _
  rw [show (getDflt idx t).1 = p0 :: tail from (getDflt_fst idx t).trans hps]
  dsimp only
  rw [hcqi]
  dsimp only
  rw [show p0 :: tail = (lookupIdx idx t).getD [] from hps.symm]
  rw [qlScan_char docId t c collLen hc hcne]

theorem qlTermsFold_char (docId : String) (collLen : Nat) (cqi : Cqi) :
    ∀ (L : List String) (idx : Index) (refs : List Ref),
      L.Nodup →
      (∀ t ∈ L, ((lookupIdx idx t).getD []) ≠ [] →
        collLen ≠ 0 ∧ ∃ c, lookupCqi cqi t = some c ∧ c ≠ 0) →
      ∃ idx2, qlTermsFold docId collLen cqi L (idx, refs) =
          some (idx2,
            refs ++ L.flatMap (fun t => seqRefs t ((lookupIdx idx t).getD []) 0)) ∧
        EvolveShape L idx idx2 := by
  intro L
  induction L with
  | nil =>
      intro idx refs _ _
      refine ⟨idx, by simp [qlTermsFold], ?_, ?_, ?_⟩
      · intro u ps0 h0; exact ⟨ps0, h0, rfl⟩
      · intro u _ hu; simp at hu
      · intro u h0 _; exact h0
  | cons t rest ih =>
      intro idx refs hnd hg
      have hnd2 := List.nodup_cons.mp hnd
      cases hps : (lookupIdx idx t).getD [] with
      | nil =>
          have hg2 : ∀ u ∈ rest, ((lookupIdx (getDflt idx t).2 u).getD []) ≠ [] →
              collLen ≠ 0 ∧ ∃ c, lookupCqi cqi u = some c ∧ c ≠ 0 := by
            intro u hu
            have hut : ¬ u = t := fun h => hnd2.1 (h ▸ hu)
            rw [getDflt_snd_lookup, if_neg hut]
            exact hg u (List.mem_cons_of_mem t hu)
          obtain ⟨idx2, hfold, hev⟩ := ih (getDflt idx t).2 refs hnd2.2 hg2
          refine ⟨idx2, ?_, ?_, ?_, ?_⟩
          · rw [qlTermsFold, qlTermStep_nil docId collLen cqi idx refs t hps]
            dsimp only
            rw [hfold]
            have hmap : rest.flatMap (fun u => seqRefs u
                  ((lookupIdx (getDflt idx t).2 u).getD []) 0) =
                rest.flatMap (fun u => seqRefs u ((lookupIdx idx u).getD []) 0) := by
              apply List.flatMap_congr
              intro u hu
              have hut : ¬ u = t := fun h => hnd2.1 (h ▸ hu)
              rw [getDflt_snd_lookup, if_neg hut]
            rw [hmap]
            simp [hps, seqRefs]
          · intro u ps0 h0
            by_cases hu : u = t
            · subst hu
              have h1 : lookupIdx (getDflt idx u).2 u = some ps0 := by
                rw [getDflt_snd_lookup, if_pos rfl, h0]
                rfl
              exact hev.1 u ps0 h1
            · exact hev.1 u ps0 (by rw [getDflt_snd_lookup, if_neg hu]; exact h0)
          · intro u h0 hu
            by_cases hut : u = t
            · subst hut
              have h1 : lookupIdx (getDflt idx u).2 u = some [] := by
                rw [getDflt_snd_lookup, if_pos rfl, h0]
                rfl
              obtain ⟨ps3, h3, hsh3⟩ := hev.1 u [] h1
              simp only [List.map_nil] at hsh3
              rw [h3, List.map_eq_nil_iff.mp hsh3]
            · have hur : u ∈ rest := by
                rcases List.mem_cons.mp hu with h | h
                · exact absurd h hut
                · exact h
              exact hev.2.1 u
                (by rw [getDflt_snd_lookup, if_neg hut]; exact h0) hur
          · intro u h0 hu
            have hut : u ≠ t := fun h => hu (h ▸ List.mem_cons_self t rest)
            exact hev.2.2 u
              (by rw [getDflt_snd_lookup, if_neg hut]; exact h0)
              (fun h => hu (List.mem_cons_of_mem t h))
      | cons p0 tail =>
          obtain ⟨hc, c, hcqi, hcne⟩ := hg t (List.mem_cons_self t rest)
            (by rw [hps]; simp)
          have hup_t : lookupIdx (setList (getDflt idx t).2 t
              (((lookupIdx idx t).getD []).map (qlUpd docId c collLen))) t =
              some (((lookupIdx idx t).getD []).map (qlUpd docId c collLen)) := by
            apply setList_lookup_self
            rw [getDflt_snd_lookup, if_pos rfl]
            exact Option.isSome_some
          have hup_o : ∀ u, u ≠ t →
              lookupIdx (setList (getDflt idx t).2 t
                (((lookupIdx idx t).getD []).map (qlUpd docId c collLen))) u =
              lookupIdx idx u := by
            intro u hu
            rw [setList_lookup_other _ _ _ _ hu, getDflt_snd_lookup, if_neg hu]
          have hg2 : ∀ u ∈ rest, ((lookupIdx (setList (getDflt idx t).2 t
              (((lookupIdx idx t).getD []).map (qlUpd docId c collLen))) u).getD []) ≠ [] →
              collLen ≠ 0 ∧ ∃ cc, lookupCqi cqi u = some cc ∧ cc ≠ 0 := by
            intro u hu
            have hut : u ≠ t := fun h => hnd2.1 (h ▸ hu)
            rw [hup_o u hut]
            exact hg u (List.mem_cons_of_mem t hu)
          obtain ⟨idx2, hfold, hev⟩ := ih _
            (refs ++ seqRefs t ((lookupIdx idx t).getD []) 0) hnd2.2 hg2
          refine ⟨idx2, ?_, ?_, ?_, ?_⟩
          · rw [qlTermsFold,
              qlTermStep_cons docId collLen cqi idx refs t p0 tail hps c hcqi hc hcne]
            dsimp only
            rw [hfold]
            have hmap : rest.flatMap (fun u => seqRefs u
                  ((lookupIdx (setList (getDflt idx t).2 t
                    (((lookupIdx idx t).getD []).map (qlUpd docId c collLen))) u).getD [])
                  0) =
                rest.flatMap (fun u => seqRefs u ((lookupIdx idx u).getD []) 0) := by
              apply List.flatMap_congr
              intro u hu
              have hut : u ≠ t := fun h => hnd2.1 (h ▸ hu)
              rw [hup_o u hut]
            rw [hmap]
            simp
          · intro u ps0 h0
            by_cases hu : u = t
            · subst hu
              obtain ⟨ps3, h3, hsh3⟩ := hev.1 u _ hup_t
              refine ⟨ps3, h3, ?_⟩
              rw [hsh3, update_shapes]
              rw [h0]
              rfl
            · exact hev.1 u ps0 (by rw [hup_o u hu]; exact h0)
          · intro u h0 hu
            by_cases hut : u = t
            · subst hut
              rw [h0] at hps
              simp at hps
            · have hur : u ∈ rest := by
                rcases List.mem_cons.mp hu with h | h
                · exact absurd h hut
                · exact h
              exact hev.2.1 u (by rw [hup_o u hut]; exact h0) hur
          · intro u h0 hu
            have hut : u ≠ t := fun h => hu (h ▸ List.mem_cons_self t rest)
            exact hev.2.2 u (by rw [hup_o u hut]; exact h0)
              (fun h => hu (List.mem_cons_of_mem t h))

theorem seqRefs_congr (t : String) :
    ∀ (l1 l2 : List Posting) (i : Nat), l1.length = l2.length →
      seqRefs t l1 i = seqRefs t l2 i := by
  intro l1
  induction l1 with
  | nil =>
      intro l2 i h
      cases l2 with
      | nil => rfl
      | cons y ys => simp at h
  | cons x xs ih =>
      intro l2 i h
      cases l2 with
      | nil => simp at h
      | cons y ys =>
          rw [seqRefs, seqRefs, ih ys (i + 1) (by simpa using h)]

theorem qlGuard_transfer (collLen : Nat) (cqi : Cqi) (L : List String)
    (idx idx1 : Index) (hev : EvolveShape L idx idx1)
    (hg : ∀ t ∈ L, ((lookupIdx idx t).getD []) ≠ [] →
      collLen ≠ 0 ∧ ∃ c, lookupCqi cqi t = some c ∧ c ≠ 0) :
    ∀ t ∈ L, ((lookupIdx idx1 t).getD []) ≠ [] →
      collLen ≠ 0 ∧ ∃ c, lookupCqi cqi t = some c ∧ c ≠ 0 := by
  intro t ht hne
  apply hg t ht
  intro hnil
  have hshape := evolveShape_getD_shape _ _ _ hev t ht
  rw [hnil] at hshape
  simp only [List.map_nil] at hshape
  exact hne (List.map_eq_nil_iff.mp hshape)

theorem qlDocsFold_char (collLen : Nat) (cqi : Cqi) (q : List String) :
    ∀ (docs : List Doc) (idx : Index) (refs : List Ref),
      (∀ t ∈ uniqueQueryTerms q, ((lookupIdx idx t).getD []) ≠ [] →
        collLen ≠ 0 ∧ ∃ c, lookupCqi cqi t = some c ∧ c ≠ 0) →
      ∃ idx2, qlDocsFold collLen cqi q docs (idx, refs) =
          some (idx2,
            refs ++ docs.flatMap (fun d => (uniqueQueryTerms q).flatMap
              (fun t => seqRefs t ((lookupIdx idx t).getD []) 0))) ∧
        EvolveShapeW (uniqueQueryTerms q) idx idx2 := by
  intro docs
  induction docs with
  | nil =>
      intro idx refs _
      exact ⟨idx, by simp [qlDocsFold], evolveShapeW_refl _ idx⟩
  | cons d rest ih =>
      intro idx refs hg
      obtain ⟨idx1, hfold, hev⟩ := qlTermsFold_char d.sceneId collLen cqi
        (uniqueQueryTerms q) idx refs (uniqueQueryTerms_nodup q) hg
      obtain ⟨idx2, hfold2, hev2⟩ := ih idx1
        (refs ++ (uniqueQueryTerms q).flatMap
          (fun t => seqRefs t ((lookupIdx idx t).getD []) 0))
        (qlGuard_transfer collLen cqi (uniqueQueryTerms q) idx idx1 hev hg)
      refine ⟨idx2, ?_, evolveShapeW_trans _ _ _ _ (evolveShape_weaken _ _ _ hev) hev2⟩
      show (match qlTermsFold d.sceneId collLen cqi (uniqueQueryTerms q) (idx, refs) with
        | none => none
        | some st => qlDocsFold collLen cqi q rest st) = _
      rw [hfold]
      dsimp only
      rw [hfold2]
      have hfm : rest.flatMap (fun e => (uniqueQueryTerms q).flatMap
            (fun t => seqRefs t ((lookupIdx idx1 t).getD []) 0)) =
          rest.flatMap (fun e => (uniqueQueryTerms q).flatMap
            (fun t => seqRefs t ((lookupIdx idx t).getD []) 0)) := by
        apply List.flatMap_congr
        intro e _
        apply List.flatMap_congr
        intro t ht
        have hshape := evolveShape_getD_shape _ _ _ hev t ht
        have hlen : ((lookupIdx idx1 t).getD []).length =
            ((lookupIdx idx t).getD []).length := by
          have := congrArg List.length hshape
          simpa using this
        exact seqRefs_congr t _ _ 0 hlen
      rw [hfm]
      simp

theorem qlDocsFold_char_cons (collLen : Nat) (cqi : Cqi) (q : List String)
    (d : Doc) (rest : List Doc) (idx : Index) (refs : List Ref)
    (hg : ∀ t ∈ uniqueQueryTerms q, ((lookupIdx idx t).getD []) ≠ [] →
      collLen ≠ 0 ∧ ∃ c, lookupCqi cqi t = some c ∧ c ≠ 0) :
    ∃ idx2, qlDocsFold collLen cqi q (d :: rest) (idx, refs) =
        some (idx2,
          refs ++ (d :: rest).flatMap (fun e => (uniqueQueryTerms q).flatMap
            (fun t => seqRefs t ((lookupIdx idx t).getD []) 0))) ∧
      EvolveShape (uniqueQueryTerms q) idx idx2 := by
  obtain ⟨idx1, hfold1, hev1⟩ := qlTermsFold_char d.sceneId collLen cqi
    (uniqueQueryTerms q) idx refs (uniqueQueryTerms_nodup q) hg
  obtain ⟨idx2, hfoldd, hevd⟩ := qlDocsFold_char collLen cqi q rest idx1
    (refs ++ (uniqueQueryTerms q).flatMap
      (fun t => seqRefs t ((lookupIdx idx t).getD []) 0))
    (qlGuard_transfer collLen cqi (uniqueQueryTerms q) idx idx1 hev1 hg)
  refine ⟨idx2, ?_, evolveShape_strong_trans _ _ _ _ hev1 hevd⟩
  show (match qlTermsFold d.sceneId collLen cqi (uniqueQueryTerms q) (idx, refs) with
    | none => none
    | some st => qlDocsFold collLen cqi q rest st) = _
  rw [hfold1]
  dsimp only
  rw [hfoldd]
  have hfm : rest.flatMap (fun e => (uniqueQueryTerms q).flatMap
        (fun t => seqRefs t ((lookupIdx idx1 t).getD []) 0)) =
      rest.flatMap (fun e => (uniqueQueryTerms q).flatMap
        (fun t => seqRefs t ((lookupIdx idx t).getD []) 0)) := by
    apply List.flatMap_congr
    intro e _
    apply List.flatMap_congr
    intro t ht
    have hshape := evolveShape_getD_shape _ _ _ hev1 t ht
    have hlen : ((lookupIdx idx1 t).getD []).length =
        ((lookupIdx idx t).getD []).length := by
      have := congrArg List.length hshape
      simpa using this
    exact seqRefs_congr t _ _ 0 hlen
  rw [hfm]
  simp

theorem built_ql_guard (corpus : List Doc) :
    ∀ (t : String), ((lookupIdx (build_index corpus).1 t).getD []) ≠ [] →
      (build_index corpus).2.1 ≠ 0 ∧
      ∃ c, lookupCqi (build_index corpus).2.2 t = some c ∧ c ≠ 0 := by
  intro t hne
  obtain ⟨hidx, hlen, hcqi⟩ := build_index_char corpus
  refine ⟨(built_guard corpus t).1 hne, ?_⟩
  rw [hidx t] at hne
  by_cases hany : corpus.any (fun d => t ∈ d.text) = true
  · refine ⟨cqiSum t corpus, by rw [hcqi t, if_pos hany], ?_⟩
    obtain ⟨e, he, hem⟩ : ∃ e ∈ corpus, t ∈ e.text := by
      simpa [List.any_eq_true] using hany
    have hle : e.text.count t ≤ (corpus.map (fun d => d.text.count t)).sum :=
      List.single_le_sum (fun _ _ => Nat.zero_le _) _ (List.mem_map_of_mem _ he)
    have hpos : 0 < e.text.count t := List.count_pos_iff_mem.mpr hem
    unfold cqiSum
    omega
  · rw [if_neg hany] at hne
    simp at hne

theorem uniqueQueryTerms_filter_aux (p : String → Bool) (q : List String) :
    ∀ (acc1 : List String),
      (q.filter p).foldl (fun acc t => if t ∈ acc then acc else acc ++ [t])
          (acc1.filter p) =
        (q.foldl (fun acc t => if t ∈ acc then acc else acc ++ [t]) acc1).filter p := by
  induction q with
  | nil => intro acc1; simp
  | cons s rest ih =>
      intro acc1
      by_cases hp : p s
      · rw [List.filter_cons, if_pos hp, List.foldl_cons, List.foldl_cons]
        by_cases hs : s ∈ acc1
        · have hs2 : s ∈ acc1.filter p := List.mem_filter.mpr ⟨hs, hp⟩
          rw [if_pos hs, if_pos hs2]
          exact ih acc1
        · have hs2 : s ∉ acc1.filter p := fun hmem => hs (List.mem_filter.mp hmem).1
          rw [if_neg hs, if_neg hs2]
          have hstep : (acc1.filter p) ++ [s] = (acc1 ++ [s]).filter p := by
            rw [List.filter_append]
            simp [hp]
          rw [hstep]
          exact ih (acc1 ++ [s])
      · rw [List.filter_cons, if_neg hp, List.foldl_cons]
        by_cases hs : s ∈ acc1
        · rw [if_pos hs]
          exact ih acc1
        · rw [if_neg hs]
          have hstep : acc1.filter p = (acc1 ++ [s]).filter p := by
            rw [List.filter_append]
            simp [hp]
          rw [hstep]
          exact ih (acc1 ++ [s])

theorem uniqueQueryTerms_filter (q : List String) (p : String → Bool) :
    uniqueQueryTerms (q.filter p) = (uniqueQueryTerms q).filter p := by
  unfold uniqueQueryTerms
  have h := uniqueQueryTerms_filter_aux p q []
  simpa using h

/-- Relation between the index states of two scorer runs that differ
only in whether the query contains one term absent from the corpus: all
other keys agree exactly (scores included), and the absent term's key is
either still missing or bound to the empty list. -/
def QState (t : String) (ia ib : Index) : Prop :=
  (∀ u, u ≠ t → lookupIdx ia u = lookupIdx ib u) ∧
  (lookupIdx ia t = none ∨ lookupIdx ia t = some [])

theorem qstate_getD_t (t : String) (ia ib : Index) (h : QState t ia ib) :
    (lookupIdx ia t).getD [] = [] := by
  rcases h.2 with h2 | h2 <;> simp [h2]

theorem bm25TermsFold_cons_eq (docId : String) (nDocs collLen : Nat) (avgdl : ℝ)
    (q : List String) (u : String) (rest : List String) (idx : Index) (acc : ℝ)
    (refs : List Ref) :
    bm25TermsFold docId nDocs collLen avgdl q (u :: rest) idx acc refs =
      match bm25Scan docId nDocs (getDflt idx u).1.length (q.count u) collLen avgdl u
          (getDflt idx u).1 0 acc refs with
      | none => none
      | some (ps2, acc2, refs2) =>
          bm25TermsFold docId nDocs collLen avgdl q rest
            (setList (getDflt idx u).2 u ps2) acc2 refs2 := rfl

theorem setList_qstate_self (t u : String) (ia ib : Index) (ps2 : List Posting)
    (h : QState t ia ib) (hu : u ≠ t) :
    QState t (setList (getDflt ia u).2 u ps2) (setList (getDflt ib u).2 u ps2) := by
  constructor
  · intro w hw
    by_cases hwu : w = u
    · subst hwu
      have ha : lookupIdx (setList (getDflt ia w).2 w ps2) w = some ps2 := by
        apply setList_lookup_self
        rw [getDflt_snd_lookup, if_pos rfl]
        exact Option.isSome_some
      have hb : lookupIdx (setList (getDflt ib w).2 w ps2) w = some ps2 := by
        apply setList_lookup_self
        rw [getDflt_snd_lookup, if_pos rfl]
        exact Option.isSome_some
      rw [ha, hb]
    · rw [setList_lookup_other _ _ _ _ hwu, setList_lookup_other _ _ _ _ hwu,
        getDflt_snd_lookup, getDflt_snd_lookup, if_neg hwu, if_neg hwu]
      exact h.1 w hw
  · rw [setList_lookup_other _ _ _ _ (Ne.symm hu), getDflt_snd_lookup,
      if_neg (Ne.symm hu)]
    exact h.2

theorem bm25TermsFold_parallel (t docId : String) (nDocs collLen : Nat) (avgdl : ℝ)
    (q : List String) :
    ∀ (L : List String) (ia ib : Index) (acc : ℝ) (refs : List Ref),
      QState t ia ib →
      (bm25TermsFold docId nDocs collLen avgdl q L ia acc refs = none ∧
        bm25TermsFold docId nDocs collLen avgdl (q.filter (fun u => u ≠ t))
          (L.filter (fun u => u ≠ t)) ib acc refs = none) ∨
      (∃ ia2 ib2 acc2 refs2,
        bm25TermsFold docId nDocs collLen avgdl q L ia acc refs =
          some (ia2, acc2, refs2) ∧
        bm25TermsFold docId nDocs collLen avgdl (q.filter (fun u => u ≠ t))
          (L.filter (fun u => u ≠ t)) ib acc refs = some (ib2, acc2, refs2) ∧
        QState t ia2 ib2) := by
  intro L
  induction L with
  | nil =>
      intro ia ib acc refs h
      exact Or.inr ⟨ia, ib, acc, refs, rfl, rfl, h⟩
  | cons u rest ih =>
      intro ia ib acc refs h
      by_cases hu : u = t
      · subst hu
        rw [List.filter_cons, if_neg (by simp)]
        rw [bm25TermsFold_cons_eq]
        rw [show (getDflt ia u).1 = [] from (getDflt_fst ia u).trans (qstate_getD_t u ia ib h)]
        show (match (some ([], acc, refs) : Option (List Posting × ℝ × List Ref)) with
          | none => none
          | some (ps2, acc2, refs2) =>
              bm25TermsFold docId nDocs collLen avgdl q rest
                (setList (getDflt ia u).2 u ps2) acc2 refs2) = none ∧ _ ∨ _
        dsimp only
        apply ih
        constructor
        · intro w hw
          rw [setList_lookup_other _ _ _ _ hw, getDflt_snd_lookup, if_neg hw]
          exact h.1 w hw
        · have ha : lookupIdx (setList (getDflt ia u).2 u []) u = some [] := by
            apply setList_lookup_self
            rw [getDflt_snd_lookup, if_pos rfl]
            exact Option.isSome_some
          rw [ha]
          right
          rfl
      · rw [List.filter_cons, if_pos (by simp [hu])]
        rw [bm25TermsFold_cons_eq, bm25TermsFold_cons_eq]
        have hps : (getDflt ib u).1 = (getDflt ia u).1 := by
          rw [getDflt_fst, getDflt_fst, h.1 u hu]
        have hcount : (q.filter (fun w => w ≠ t)).count u = q.count u :=
          List.count_filter (by simp [hu])
        rw [hps, hcount]
        cases hscan : bm25Scan docId nDocs (getDflt ia u).1.length (q.count u) collLen
            avgdl u (getDflt ia u).1 0 acc refs with
        | none => exact Or.inl ⟨rfl, rfl⟩
        | some r =>
            obtain ⟨ps2, acc2, refs2⟩ := r
            dsimp only
            exact ih _ _ acc2 refs2 (setList_qstate_self t u ia ib ps2 h hu)

theorem bm25DocsFold_cons_eq (nDocs collLen : Nat) (avgdl : ℝ) (q : List String)
    (d : Doc) (rest : List Doc) (idx : Index) (refs : List Ref) :
    bm25DocsFold nDocs collLen avgdl q (d :: rest) idx refs =
      match bm25TermsFold d.sceneId nDocs collLen avgdl q (uniqueQueryTerms q) idx 0
          refs with
      | none => none
      | some (idx2, _, refs2) => bm25DocsFold nDocs collLen avgdl q rest idx2 refs2 :=
  rfl

theorem bm25DocsFold_parallel (t : String) (nDocs collLen : Nat) (avgdl : ℝ)
    (q : List String) :
    ∀ (docs : List Doc) (ia ib : Index) (refs : List Ref),
      QState t ia ib →
      (bm25DocsFold nDocs collLen avgdl q docs ia refs = none ∧
        bm25DocsFold nDocs collLen avgdl (q.filter (fun u => u ≠ t)) docs ib refs =
          none) ∨
      (∃ ia2 ib2 refs2,
        bm25DocsFold nDocs collLen avgdl q docs ia refs = some (ia2, refs2) ∧
        bm25DocsFold nDocs collLen avgdl (q.filter (fun u => u ≠ t)) docs ib refs =
          some (ib2, refs2) ∧
        QState t ia2 ib2) := by
  intro docs
  induction docs with
  | nil =>
      intro ia ib refs h
      exact Or.inr ⟨ia, ib, refs, rfl, rfl, h⟩
  | cons d rest ih =>
      intro ia ib refs h
      have hL : uniqueQueryTerms (q.filter (fun u => u ≠ t)) =
          (uniqueQueryTerms q).filter (fun u => u ≠ t) :=
        uniqueQueryTerms_filter q (fun u => u ≠ t)
      rcases bm25TermsFold_parallel t d.sceneId nDocs collLen avgdl q
          (uniqueQueryTerms q) ia ib 0 refs h with
        ⟨ha, hb⟩ | ⟨ia2, ib2, acc2, refs2, ha, hb, h2⟩
      · refine Or.inl ⟨?_, ?_⟩
        · rw [bm25DocsFold_cons_eq, ha]
        · rw [bm25DocsFold_cons_eq, hL, hb]
      · rcases ih ia2 ib2 refs2 h2 with ⟨ha2, hb2⟩ | ⟨ia3, ib3, refs3, ha2, hb2, h3⟩
        · refine Or.inl ⟨?_, ?_⟩
          · rw [bm25DocsFold_cons_eq, ha]
            exact ha2
          · rw [bm25DocsFold_cons_eq, hL, hb]
            exact hb2
        · refine Or.inr ⟨ia3, ib3, refs3, ?_, ?_, h3⟩
          · rw [bm25DocsFold_cons_eq, ha]
            exact ha2
          · rw [bm25DocsFold_cons_eq, hL, hb]
            exact hb2

theorem qlTermStep_unfold (docId : String) (collLen : Nat) (cqi : Cqi) (idx : Index)
    (refs : List Ref) (t : String) (p0 : Posting) (tail : List Posting)
    (hps : (lookupIdx idx t).getD [] = p0 :: tail) :
    qlTermStep docId collLen cqi (idx, refs) t =
      match lookupCqi cqi t with
      | none => none
      | some c =>
          match qlScan docId c collLen t ((lookupIdx idx t).getD []) 0 refs with
          | none => none
          | some (ps2, refs2) => some (setList (getDflt idx t).2 t ps2, refs2) := by
  show (match (getDflt idx t).1 with
    | [] => some ((getDflt idx t).2, refs)
    | _ =>
      match lookupCqi cqi t with
      | none => none
      | some cqiT =>
        match qlScan docId cqiT collLen t (getDflt idx t).1 0 refs with
        | none => none
        | some (ps2, refs2) => some (setList (getDflt idx t).2 t ps2, refs2)) = _
  rw [show (getDflt idx t).1 = p0 :: tail from (getDflt_fst idx t).trans hps]
  dsimp only
  rw [show p0 :: tail = (lookupIdx idx t).getD [] from hps.symm]

theorem getDflt_qstate (t u : String) (ia ib : Index) (h : QState t ia ib)
    (hu : u ≠ t) : QState t (getDflt ia u).2 (getDflt ib u).2 := by
  constructor
  · intro w hw
    rw [getDflt_snd_lookup, getDflt_snd_lookup]
    by_cases hwu : w = u
    · rw [if_pos hwu, if_pos hwu, h.1 u hu]
    · rw [if_neg hwu, if_neg hwu]
      exact h.1 w hw
  · rw [getDflt_snd_lookup, if_neg (Ne.symm hu)]
    exact h.2

theorem qlTermsFold_parallel (t docId : String) (collLen : Nat) (cqi : Cqi) :
    ∀ (L : List String) (ia ib : Index) (refs : List Ref),
      QState t ia ib →
      (qlTermsFold docId collLen cqi L (ia, refs) = none ∧
        qlTermsFold docId collLen cqi (L.filter (fun u => u ≠ t)) (ib, refs) = none) ∨
      (∃ ia2 ib2 refs2,
        qlTermsFold docId collLen cqi L (ia, refs) = some (ia2, refs2) ∧
        qlTermsFold docId collLen cqi (L.filter (fun u => u ≠ t)) (ib, refs) =
          some (ib2, refs2) ∧
        QState t ia2 ib2) := by
  intro L
  induction L with
  | nil =>
      intro ia ib refs h
      exact Or.inr ⟨ia, ib, refs, rfl, rfl, h⟩
  | cons u rest ih =>
      intro ia ib refs h
      by_cases hu : u = t
      · subst hu
        rw [List.filter_cons, if_neg (by simp)]
        rw [qlTermsFold, qlTermStep_nil docId collLen cqi ia refs u (qstate_getD_t u ia ib h)]
        dsimp only
        apply ih
        constructor
        · intro w hw
          rw [getDflt_snd_lookup, if_neg hw]
          exact h.1 w hw
        · right
          rw [getDflt_snd_lookup, if_pos rfl, qstate_getD_t u ia ib h]
      · rw [List.filter_cons, if_pos (by simp [hu])]
        cases hps : (lookupIdx ia u).getD [] with
        | nil =>
            have hpsb : (lookupIdx ib u).getD [] = [] := by
              rw [← h.1 u hu]
              exact hps
            rw [qlTermsFold, qlTermStep_nil docId collLen cqi ia refs u hps]
            rw [qlTermsFold, qlTermStep_nil docId collLen cqi ib refs u hpsb]
            dsimp only
            exact ih _ _ refs (getDflt_qstate t u ia ib h hu)
        | cons p0 tail =>
            have hpsb : (lookupIdx ib u).getD [] = p0 :: tail := by
              rw [← h.1 u hu]
              exact hps
            rw [qlTermsFold, qlTermStep_unfold docId collLen cqi ia refs u p0 tail hps]
            rw [qlTermsFold, qlTermStep_unfold docId collLen cqi ib refs u p0 tail hpsb]
            rw [show (lookupIdx ib u).getD [] = (lookupIdx ia u).getD [] from
              (h.1 u hu).symm ▸ rfl]
            cases hcq : lookupCqi cqi u with
            | none => exact Or.inl ⟨rfl, rfl⟩
            | some c =>
                dsimp only
                cases hscan : qlScan docId c collLen u ((lookupIdx ia u).getD []) 0
                    refs with
                | none => exact Or.inl ⟨rfl, rfl⟩
                | some r =>
                    obtain ⟨ps2, refs2⟩ := r
                    dsimp only
                    exact ih _ _ refs2 (setList_qstate_self t u ia ib ps2 h hu)

theorem qlDocsFold_cons_eq (collLen : Nat) (cqi : Cqi) (q : List String) (d : Doc)
    (rest : List Doc) (st : Index × List Ref) :
    qlDocsFold collLen cqi q (d :: rest) st =
      match qlTermsFold d.sceneId collLen cqi (uniqueQueryTerms q) st with
      | none => none
      | some st2 => qlDocsFold collLen cqi q rest st2 := rfl

theorem qlDocsFold_parallel (t : String) (collLen : Nat) (cqi : Cqi)
    (q : List String) :
    ∀ (docs : List Doc) (ia ib : Index) (refs : List Ref),
      QState t ia ib →
      (qlDocsFold collLen cqi q docs (ia, refs) = none ∧
        qlDocsFold collLen cqi (q.filter (fun u => u ≠ t)) docs (ib, refs) = none) ∨
      (∃ ia2 ib2 refs2,
        qlDocsFold collLen cqi q docs (ia, refs) = some (ia2, refs2) ∧
        qlDocsFold collLen cqi (q.filter (fun u => u ≠ t)) docs (ib, refs) =
          some (ib2, refs2) ∧
        QState t ia2 ib2) := by
  intro docs
  induction docs with
  | nil =>
      intro ia ib refs h
      exact Or.inr ⟨ia, ib, refs, rfl, rfl, h⟩
  | cons d rest ih =>
      intro ia ib refs h
      have hL : uniqueQueryTerms (q.filter (fun u => u ≠ t)) =
          (uniqueQueryTerms q).filter (fun u => u ≠ t) :=
        uniqueQueryTerms_filter q (fun u => u ≠ t)
      rcases qlTermsFold_parallel t d.sceneId collLen cqi (uniqueQueryTerms q)
          ia ib refs h with ⟨ha, hb⟩ | ⟨ia2, ib2, refs2, ha, hb, h2⟩
      · refine Or.inl ⟨?_, ?_⟩
        · rw [qlDocsFold_cons_eq, ha]
        · rw [qlDocsFold_cons_eq, hL, hb]
      · rcases ih ia2 ib2 refs2 h2 with ⟨ha2, hb2⟩ | ⟨ia3, ib3, refs3, ha2, hb2, h3⟩
        · refine Or.inl ⟨?_, ?_⟩
          · rw [qlDocsFold_cons_eq, ha]
            exact ha2
          · rw [qlDocsFold_cons_eq, hL, hb]
            exact hb2
        · refine Or.inr ⟨ia3, ib3, refs3, ?_, ?_, h3⟩
          · rw [qlDocsFold_cons_eq, ha]
            exact ha2
          · rw [qlDocsFold_cons_eq, hL, hb]
            exact hb2

theorem resolveRefs_eq_of_qstate (t : String) (ia ib : Index)
    (h1 : ∀ u, u ≠ t → lookupIdx ia u = lookupIdx ib u)
    (hat : lookupIdx ia t = none ∨ lookupIdx ia t = some [])
    (hbt : lookupIdx ib t = none ∨ lookupIdx ib t = some []) :
    ∀ refs : List Ref, resolveRefs ia refs = resolveRefs ib refs := by
  intro refs
  induction refs with
  | nil => rfl
  | cons r rest ih =>
      unfold resolveRefs at ih ⊢
      rw [List.filterMap_cons, List.filterMap_cons]
      by_cases hr : r.1 = t
      · have hna : ((lookupIdx ia r.1).bind (fun ps => ps[r.2]?)) = none := by
          rw [hr]
          rcases hat with h | h <;> simp [h]
        have hnb : ((lookupIdx ib r.1).bind (fun ps => ps[r.2]?)) = none := by
          rw [hr]
          rcases hbt with h | h <;> simp [h]
        rw [hna, hnb, ih]
      · rw [h1 r.1 hr, ih]

end Indexer

namespace Indexer

/-- Claim C6: for every corpus with distinct document identifiers, the
built index satisfies the stated invariants: every indexed term has a
non-empty posting list with at most one posting per document (hence
document frequency equals posting-list length), each posting's term
frequency equals the length of its strictly increasing positions list,
the collection length is the sum of all document lengths, and the
corpus-wide term frequency equals the sum of the term frequencies over
the term's posting list. -/
theorem claim_C6 (corpus : List Doc) (t : String) (ps : List Posting)
    (hps : lookupIdx (build_index corpus).1 t = some ps)
    (hnd : (corpus.map (fun d => d.sceneId)).Nodup) :
    ps ≠ [] ∧
    (ps.map (fun p => p.doc_id)).Nodup ∧
    ps.length = (corpus.filter (fun d => t ∈ d.text)).length ∧
    (∀ p ∈ ps, p.termCount = p.positions.length ∧ p.positions.Chain' (· < ·)) ∧
    lookupCqi (build_index corpus).2.2 t = some ((ps.map (fun p => p.termCount)).sum) ∧
    (build_index corpus).2.1 = (corpus.map (fun d => d.text.length)).sum := by
  obtain ⟨hidx, hlen, hcqi⟩ := build_index_char corpus
  have h1 := hidx t
  rw [hps] at h1
  by_cases hany : corpus.any (fun d => t ∈ d.text) = true
  swap
  · rw [if_neg hany] at h1; exact absurd h1 (by simp)
  rw [if_pos hany] at h1
  injection h1 with hpl
  subst hpl
  obtain ⟨d0, hd0, hd0m⟩ := by simpa [List.any_eq_true] using hany
  refine ⟨?_, ?_, ?_, ?_, ?_, hlen⟩
  · intro hnil
    have hmem : d0 ∈ corpus.filter (fun d => t ∈ d.text) :=
      List.mem_filter.mpr ⟨hd0, by simpa using hd0m⟩
    have : mkPosting t corpus.length d0 ∈ postList t corpus.length corpus :=
      List.mem_map_of_mem _ hmem
    rw [hnil] at this
    exact absurd this (List.not_mem_nil _)
  · have hsub : List.Sublist
        ((postList t corpus.length corpus).map (fun p => p.doc_id))
        (corpus.map (fun d => d.sceneId)) := by
      have heq : (postList t corpus.length corpus).map (fun p => p.doc_id) =
          (corpus.filter (fun d => t ∈ d.text)).map (fun d => d.sceneId) := by
        simp [postList, mkPosting]
      rw [heq]
      exact (List.filter_sublist corpus).map _
    exact hnd.sublist hsub
  · simp [postList]
  · intro p hp
    obtain ⟨d, hd, rfl⟩ := by
      simpa [postList] using hp
    exact ⟨rfl, posOf_chain t d.text 0⟩
  · rw [hcqi t, if_pos hany]
    have : (postList t corpus.length corpus).map (fun p => p.termCount) =
        (corpus.filter (fun d => t ∈ d.text)).map (fun d => d.text.count t) := by
      simp [postList, mkPosting, posOf_length]
    rw [this, ← cqiSum_eq_filter]

/-- Witness for claim C6 at a concrete one-document corpus. -/
theorem claim_C6_witness :
    (lookupIdx (build_index [⟨"doc", ["a", "b", "a"]⟩]).1 "a" =
        some [⟨"doc", [0, 2], 2, 3, 0, 1⟩] ∧
      ([⟨"doc", ["a", "b", "a"]⟩].map (fun d : Doc => d.sceneId)).Nodup) ∧
    ([(⟨"doc", [0, 2], 2, 3, 0, 1⟩ : Posting)] ≠ [] ∧
      ([(⟨"doc", [0, 2], 2, 3, 0, 1⟩ : Posting)].map (fun p => p.doc_id)).Nodup ∧
      [(⟨"doc", [0, 2], 2, 3, 0, 1⟩ : Posting)].length =
        ([⟨"doc", ["a", "b", "a"]⟩].filter (fun d : Doc => "a" ∈ d.text)).length ∧
      (∀ p ∈ [(⟨"doc", [0, 2], 2, 3, 0, 1⟩ : Posting)],
        p.termCount = p.positions.length ∧ p.positions.Chain' (· < ·)) ∧
      lookupCqi (build_index [⟨"doc", ["a", "b", "a"]⟩]).2.2 "a" =
        some (([(⟨"doc", [0, 2], 2, 3, 0, 1⟩ : Posting)].map (fun p => p.termCount)).sum) ∧
      (build_index [⟨"doc", ["a", "b", "a"]⟩]).2.1 =
        ([⟨"doc", ["a", "b", "a"]⟩].map (fun d : Doc => d.text.length)).sum) :=
  ⟨⟨rfl, by simp⟩, claim_C6 [⟨"doc", ["a", "b", "a"]⟩] "a" [⟨"doc", [0, 2], 2, 3, 0, 1⟩]
    rfl (by simp)⟩

/-- Counterexample to claim C9 as stated: on the empty corpus (whose
built index is empty, so the query term x appears nowhere, ni = 0 and
cqi = 0), bm25_ranking fails with a ZeroDivisionError computing avgdl
(modelled as none), so scoring does fail for some corpus. -/
theorem claim_C9_counterexample :
    bm25_ranking (build_index []).1 ["x"] [] (build_index []).2.1 = none := rfl

/-- Counterexample to claim C10 as stated: on the empty corpus the
document loop of ql_ranking never runs, so the unknown query term x is
never looked up and the returned index does not contain it (the claim
asserts the entry x maps to the empty list after scoring with either
scorer). -/
theorem claim_C10_counterexample :
    (ql_ranking (build_index []).1 ["x"] [] (build_index []).2.1
        (build_index []).2.2).map (fun r => lookupIdx r.2 "x") = some none := by
  simp [build_index, ql_ranking, qlDocsFold, topK, resolveRefs, lookupIdx]

/-- Claim C4: for every non-empty corpus (with the unique document
identifiers the data model requires), every query and every document of
the corpus, the BM25 per-document score computed by bm25_ranking is the
sum, over the unique query terms present in that document, of
idf * tf_weight * qtf_weight with ni the posting-list length of the
term, avgdl = collection_length / N, K = k1 * ((1 - b) + b * (dl / avgdl)),
idf = ln((N - ni + 0.5) / (ni + 0.5)), tf_weight = ((k1 + 1) * tf) /
(K + tf), qtf_weight = ((k2 + 1) * qfi) / (k2 + qfi), with k1 = 1.8,
k2 = 5, b = 0.75; idf is negative (unclamped) whenever the term occurs
in more than half the corpus. -/
theorem claim_C4 (corpus : List Doc) (q : List String) (d : Doc)
    (hd : d ∈ corpus) (hnd : (corpus.map (fun e => e.sceneId)).Nodup) :
    bm25DocScore (build_index corpus).1 q corpus.length (build_index corpus).2.1
        d.sceneId =
      some (((uniqueQueryTerms q).map (fun t =>
        if t ∈ d.text then
          idf corpus.length ((lookupIdx (build_index corpus).1 t).getD []).length *
            tfWeight (d.text.count t) (Kfac d.text.length
              (((build_index corpus).2.1 : ℝ) / (corpus.length : ℝ))) *
            qtfWeight (q.count t)
        else 0)).sum) ∧
    (∀ nD ni : Nat, ni ≤ nD → nD < 2 * ni → idf nD ni < 0) ∧
    k1 = 1.8 ∧ k2 = 5 ∧ b = 0.75 :=
  ⟨bm25DocScore_built corpus q d hd hnd,
    fun nD ni h1 h2 => idf_neg_of_majority nD ni h1 h2, rfl, rfl, rfl⟩

/-- Witness for claim C4 at a concrete one-document corpus and query. -/
theorem claim_C4_witness :
    ((⟨"d1", ["a"]⟩ : Doc) ∈ [(⟨"d1", ["a"]⟩ : Doc)] ∧
      ([(⟨"d1", ["a"]⟩ : Doc)].map (fun e => e.sceneId)).Nodup) ∧
    (bm25DocScore (build_index [(⟨"d1", ["a"]⟩ : Doc)]).1 ["a"]
        [(⟨"d1", ["a"]⟩ : Doc)].length (build_index [(⟨"d1", ["a"]⟩ : Doc)]).2.1
        (⟨"d1", ["a"]⟩ : Doc).sceneId =
      some (((uniqueQueryTerms ["a"]).map (fun t =>
        if t ∈ (⟨"d1", ["a"]⟩ : Doc).text then
          idf [(⟨"d1", ["a"]⟩ : Doc)].length
              ((lookupIdx (build_index [(⟨"d1", ["a"]⟩ : Doc)]).1 t).getD []).length *
            tfWeight ((⟨"d1", ["a"]⟩ : Doc).text.count t)
              (Kfac (⟨"d1", ["a"]⟩ : Doc).text.length
                (((build_index [(⟨"d1", ["a"]⟩ : Doc)]).2.1 : ℝ) /
                  (([(⟨"d1", ["a"]⟩ : Doc)].length : Nat) : ℝ))) *
            qtfWeight (["a"].count t)
        else 0)).sum) ∧
      (∀ nD ni : Nat, ni ≤ nD → nD < 2 * ni → idf nD ni < 0) ∧
      k1 = 1.8 ∧ k2 = 5 ∧ b = 0.75) :=
  ⟨⟨by simp, by simp⟩,
    claim_C4 [(⟨"d1", ["a"]⟩ : Doc)] ["a"] (⟨"d1", ["a"]⟩ : Doc) (by simp) (by simp)⟩

/-- Amended claim C3: over a non-empty corpus with distinct document
identifiers, the pre-truncation BM25 entry list contains exactly one
entry per (unique query term, document) pair such that the term occurs
in the document (so a document sharing n of the query terms appears n
times, not once); consequently every document sharing at least one term
appears at least once before truncation, and a document sharing no query
term has no entry at all, neither before nor after the truncation to the
top 100. -/
theorem claim_C3 (d0 : Doc) (rest : List Doc) (q : List String)
    (hnd : ((d0 :: rest).map (fun e => e.sceneId)).Nodup) :
    ∃ l idx2,
      bm25Entries (build_index (d0 :: rest)).1 q (d0 :: rest)
          (build_index (d0 :: rest)).2.1 = some l ∧
      bm25_ranking (build_index (d0 :: rest)).1 q (d0 :: rest)
          (build_index (d0 :: rest)).2.1 = some (topK l 100, idx2) ∧
      l.map (fun p => p.doc_id) = (d0 :: rest).flatMap (fun d =>
        ((uniqueQueryTerms q).filter (fun t => t ∈ d.text)).map (fun _ => d.sceneId)) ∧
      (∀ d ∈ d0 :: rest, (∃ t ∈ uniqueQueryTerms q, t ∈ d.text) →
        d.sceneId ∈ l.map (fun p => p.doc_id)) ∧
      (∀ d ∈ d0 :: rest, (∀ t ∈ uniqueQueryTerms q, t ∉ d.text) →
        d.sceneId ∉ l.map (fun p => p.doc_id) ∧
        d.sceneId ∉ (topK l 100).map (fun p => p.doc_id)) := by
  obtain ⟨idx2, hfold, hev⟩ := bm25DocsFold_char_cons (d0 :: rest).length
    (build_index (d0 :: rest)).2.1
    (((build_index (d0 :: rest)).2.1 : ℝ) / ((d0 :: rest).length : ℝ)) q
    d0 rest (build_index (d0 :: rest)).1 [] (fun t _ => built_guard (d0 :: rest) t)
  have hchar : (resolveRefs idx2 ((d0 :: rest).flatMap (fun d =>
        (uniqueQueryTerms q).flatMap (fun t => matchRefs t d.sceneId
          ((lookupIdx (build_index (d0 :: rest)).1 t).getD []) 0)))).map
      (fun p => p.doc_id) = (d0 :: rest).flatMap (fun d =>
        ((uniqueQueryTerms q).filter (fun t => t ∈ d.text)).map
          (fun _ => d.sceneId)) := by
    rw [resolveRefs_flatMap, List.map_flatMap]
    apply List.flatMap_congr
    intro d hd
    rw [resolveRefs_flatMap, List.map_flatMap]
    rw [← flatMap_replicate_ite d.sceneId d.text (uniqueQueryTerms q)]
    apply List.flatMap_congr
    intro t ht
    rw [resolved_doc_ids _ _ _ hev t ht d.sceneId]
    congr 1
    obtain ⟨hidx, _, _⟩ := build_index_char (d0 :: rest)
    rw [hidx t]
    by_cases hany : (d0 :: rest).any (fun e => t ∈ e.text) = true
    · rw [if_pos hany]
      simp only [Option.getD_some]
      exact postList_filter_length t (d0 :: rest).length (d0 :: rest) d hd hnd
    · rw [if_neg hany]
      have hnm : t ∉ d.text := by
        intro hmem
        exact hany (by simp only [List.any_eq_true, decide_eq_true_eq]; exact ⟨d, hd, hmem⟩)
      simp [hnm]
  refine ⟨resolveRefs idx2 ((d0 :: rest).flatMap (fun d => (uniqueQueryTerms q).flatMap
      (fun t => matchRefs t d.sceneId
        ((lookupIdx (build_index (d0 :: rest)).1 t).getD []) 0))),
    idx2, ?_, ?_, hchar, ?_, ?_⟩
  · unfold bm25Entries
    rw [hfold]
    simp
  · unfold bm25_ranking
    rw [if_neg (by simp), hfold]
    simp
  · intro d hd hex
    rw [hchar]
    obtain ⟨t, ht, htd⟩ := hex
    apply List.mem_flatMap.mpr
    refine ⟨d, hd, ?_⟩
    exact List.mem_map_of_mem _ (List.mem_filter.mpr ⟨ht, by simpa using htd⟩)
  · intro d hd hnone
    have habs : d.sceneId ∉ (resolveRefs idx2 ((d0 :: rest).flatMap (fun d =>
        (uniqueQueryTerms q).flatMap (fun t => matchRefs t d.sceneId
          ((lookupIdx (build_index (d0 :: rest)).1 t).getD []) 0)))).map
        (fun p => p.doc_id) := by
      rw [hchar]
      intro hmem
      obtain ⟨e, he, hemem⟩ := List.mem_flatMap.mp hmem
      obtain ⟨t, htf, hts⟩ := List.mem_map.mp hemem
      have hed : e = d :=
        List.inj_on_of_nodup_map hnd he hd hts
      obtain ⟨htL, htd⟩ := List.mem_filter.mp htf
      exact hnone t htL (by simpa [hed] using htd)
    refine ⟨habs, ?_⟩
    intro hmem
    apply habs
    obtain ⟨p, hp, hps⟩ := List.mem_map.mp hmem
    have hpl : p ∈ (resolveRefs idx2 ((d0 :: rest).flatMap (fun d =>
        (uniqueQueryTerms q).flatMap (fun t => matchRefs t d.sceneId
          ((lookupIdx (build_index (d0 :: rest)).1 t).getD []) 0)))) := by
      have hp2 := List.mem_of_mem_take hp
      exact List.mem_mergeSort.mp hp2
    exact hps ▸ List.mem_map_of_mem _ hpl

/-- A one-document corpus sharing two terms with the query, used to
exercise the bm25 result-set claims. -/
def c3doc : Doc := ⟨"d1", ["a", "b"]⟩

/-- Witness for the amended claim C3 at a concrete corpus and query. -/
theorem claim_C3_witness :
    (([c3doc].map (fun e => e.sceneId)).Nodup) ∧
    (∃ l idx2,
      bm25Entries (build_index [c3doc]).1 ["a", "b"] [c3doc]
          (build_index [c3doc]).2.1 = some l ∧
      bm25_ranking (build_index [c3doc]).1 ["a", "b"] [c3doc]
          (build_index [c3doc]).2.1 = some (topK l 100, idx2) ∧
      l.map (fun p => p.doc_id) = [c3doc].flatMap (fun d =>
        ((uniqueQueryTerms ["a", "b"]).filter (fun t => t ∈ d.text)).map
          (fun _ => d.sceneId)) ∧
      (∀ d ∈ [c3doc], (∃ t ∈ uniqueQueryTerms ["a", "b"], t ∈ d.text) →
        d.sceneId ∈ l.map (fun p => p.doc_id)) ∧
      (∀ d ∈ [c3doc], (∀ t ∈ uniqueQueryTerms ["a", "b"], t ∉ d.text) →
        d.sceneId ∉ l.map (fun p => p.doc_id) ∧
        d.sceneId ∉ (topK l 100).map (fun p => p.doc_id))) :=
  ⟨by simp, claim_C3 c3doc [] ["a", "b"] (by simp)⟩

/-- Counterexample to claim C3 as stated: on a one-document corpus whose
document shares both query terms, the pre-truncation BM25 result
contains two entries for that document (one per matching term), not
exactly one. -/
theorem claim_C3_counterexample :
    (bm25Entries (build_index [c3doc]).1 ["a", "b"] [c3doc]
        (build_index [c3doc]).2.1).map
      (fun l => (l.map (fun p => p.doc_id)).count "d1") = some 2 ∧ (2 : Nat) ≠ 1 :=
  ⟨rfl, by decide⟩

/-- Amended claim C8: over a built index with distinct document
identifiers, for a non-empty query and two documents of the corpus of
equal length (holding K fixed) that both contain every query term, with
the first document's term frequency strictly higher for every query
term, the BM25 document score of the first is strictly higher than that
of the second, provided additionally that every query term occurs in
fewer than half the documents of the corpus (positive idf) — without
that proviso the claim is false, see the counterexample. -/
theorem claim_C8 (corpus : List Doc) (q : List String) (d1 d2 : Doc)
    (hd1 : d1 ∈ corpus) (hd2 : d2 ∈ corpus)
    (hnd : (corpus.map (fun e => e.sceneId)).Nodup) (hq : q ≠ [])
    (hlen : d1.text.length = d2.text.length)
    (htf : ∀ t ∈ uniqueQueryTerms q,
      1 ≤ d2.text.count t ∧ d2.text.count t < d1.text.count t)
    (hidf : ∀ t ∈ uniqueQueryTerms q,
      2 * ((lookupIdx (build_index corpus).1 t).getD []).length < corpus.length) :
    (bm25DocScore (build_index corpus).1 q corpus.length (build_index corpus).2.1
        d1.sceneId).isSome ∧
    (bm25DocScore (build_index corpus).1 q corpus.length (build_index corpus).2.1
        d2.sceneId).isSome ∧
    (bm25DocScore (build_index corpus).1 q corpus.length (build_index corpus).2.1
        d2.sceneId).getD 0 <
      (bm25DocScore (build_index corpus).1 q corpus.length (build_index corpus).2.1
        d1.sceneId).getD 0 := by
  rw [bm25DocScore_built corpus q d1 hd1 hnd, bm25DocScore_built corpus q d2 hd2 hnd]
  refine ⟨by simp, by simp, ?_⟩
  simp only [Option.getD_some]
  obtain ⟨t0, ht0⟩ := List.exists_mem_of_ne_nil _ (uniqueQueryTerms_ne_nil q hq)
  have ht0d2 : t0 ∈ d2.text :=
    List.count_pos_iff_mem.mp (Nat.lt_of_lt_of_le Nat.zero_lt_one (htf t0 ht0).1)
  have hcoll : 0 < (build_index corpus).2.1 :=
    built_collLen_pos corpus d2 hd2 (List.ne_nil_of_mem ht0d2)
  have hN : 0 < corpus.length := List.length_pos.mpr (List.ne_nil_of_mem hd1)
  have havg : 0 < ((build_index corpus).2.1 : ℝ) / (corpus.length : ℝ) := by
    apply div_pos
    · exact_mod_cast hcoll
    · exact_mod_cast hN
  have hK : 0 < Kfac d2.text.length (((build_index corpus).2.1 : ℝ) / (corpus.length : ℝ)) :=
    Kfac_pos _ _ havg
  rw [hlen]
  have hpt : ∀ t ∈ uniqueQueryTerms q,
      (if t ∈ d2.text then
        idf corpus.length ((lookupIdx (build_index corpus).1 t).getD []).length *
          tfWeight (d2.text.count t) (Kfac d2.text.length
            (((build_index corpus).2.1 : ℝ) / (corpus.length : ℝ))) *
          qtfWeight (q.count t)
      else 0) <
      (if t ∈ d1.text then
        idf corpus.length ((lookupIdx (build_index corpus).1 t).getD []).length *
          tfWeight (d1.text.count t) (Kfac d2.text.length
            (((build_index corpus).2.1 : ℝ) / (corpus.length : ℝ))) *
          qtfWeight (q.count t)
      else 0) := by
    intro t ht
    obtain ⟨hc1, hc2⟩ := htf t ht
    have hm2 : t ∈ d2.text :=
      List.count_pos_iff_mem.mp (Nat.lt_of_lt_of_le Nat.zero_lt_one hc1)
    have hm1 : t ∈ d1.text :=
      List.count_pos_iff_mem.mp (by omega)
    rw [if_pos hm1, if_pos hm2]
    have hidfp := idf_pos_of_minority corpus.length
      ((lookupIdx (build_index corpus).1 t).getD []).length (hidf t ht)
    have hqf : 1 ≤ q.count t :=
      List.count_pos_iff_mem.mpr ((uniqueQueryTerms_mem q t).mp ht)
    have hqtf := qtfWeight_pos (q.count t) hqf
    have htfw := tfWeight_strictMono (d2.text.count t) (d1.text.count t) _ hK hc2
    have key := mul_lt_mul_of_pos_left htfw (mul_pos hidfp hqtf)
    nlinarith [key]
  exact List.sum_lt_sum _ _ (fun t ht => le_of_lt (hpt t ht))
    ⟨t0, ht0, hpt t0 ht0⟩

/-- Documents exercising the amended claim C8: a corpus of five
documents in which the query term a occurs in two of them. -/
def w1 : Doc := ⟨"w1", ["a", "a"]⟩

/-- Second document of the C8 witness corpus. -/
def w2 : Doc := ⟨"w2", ["a", "b"]⟩

/-- Padding documents of the C8 witness corpus. -/
def w3 : Doc := ⟨"w3", ["c", "c"]⟩

/-- Padding document of the C8 witness corpus. -/
def w4 : Doc := ⟨"w4", ["c", "d"]⟩

/-- Padding document of the C8 witness corpus. -/
def w5 : Doc := ⟨"w5", ["c"]⟩

/-- The C8 witness corpus. -/
def wCorpus : List Doc := [w1, w2, w3, w4, w5]

/-- Witness for the amended claim C8 at a concrete corpus and query. -/
theorem claim_C8_witness :
    (w1 ∈ wCorpus ∧ w2 ∈ wCorpus ∧ (wCorpus.map (fun e => e.sceneId)).Nodup ∧
      ["a"] ≠ ([] : List String) ∧ w1.text.length = w2.text.length ∧
      (∀ t ∈ uniqueQueryTerms ["a"],
        1 ≤ w2.text.count t ∧ w2.text.count t < w1.text.count t) ∧
      (∀ t ∈ uniqueQueryTerms ["a"],
        2 * ((lookupIdx (build_index wCorpus).1 t).getD []).length < wCorpus.length)) ∧
    ((bm25DocScore (build_index wCorpus).1 ["a"] wCorpus.length
        (build_index wCorpus).2.1 w1.sceneId).isSome ∧
      (bm25DocScore (build_index wCorpus).1 ["a"] wCorpus.length
        (build_index wCorpus).2.1 w2.sceneId).isSome ∧
      (bm25DocScore (build_index wCorpus).1 ["a"] wCorpus.length
        (build_index wCorpus).2.1 w2.sceneId).getD 0 <
        (bm25DocScore (build_index wCorpus).1 ["a"] wCorpus.length
          (build_index wCorpus).2.1 w1.sceneId).getD 0) :=
  ⟨⟨by decide, by decide, by decide, by decide, by decide, by decide, by decide⟩,
    claim_C8 wCorpus ["a"] w1 w2 (by decide) (by decide) (by decide) (by decide)
      (by decide) (by decide) (by decide)⟩

/-- First document of the C8 counterexample corpus: term frequency 2 for
the query term. -/
def cex1 : Doc := ⟨"d1", ["a", "a"]⟩

/-- Second document of the C8 counterexample corpus: term frequency 1,
same length. -/
def cex2 : Doc := ⟨"d2", ["a", "b"]⟩

/-- Third document of the C8 counterexample corpus, making the query
term occur in every document (ni = N = 3, negative idf). -/
def cex3 : Doc := ⟨"d3", ["a", "c"]⟩

/-- The C8 counterexample corpus. -/
def cexCorpus : List Doc := [cex1, cex2, cex3]

/-- Counterexample to claim C8 as stated: when the query term occurs in
every document of the corpus its idf is negative, and the document with
the strictly higher term frequency (same length, all query terms
present) scores strictly lower, not higher. -/
theorem claim_C8_counterexample :
    (cex1 ∈ cexCorpus ∧ cex2 ∈ cexCorpus ∧
      (cexCorpus.map (fun e => e.sceneId)).Nodup ∧
      cex1.text.length = cex2.text.length ∧
      1 ≤ cex2.text.count "a" ∧ cex2.text.count "a" < cex1.text.count "a") ∧
    (bm25DocScore (build_index cexCorpus).1 ["a"] cexCorpus.length
        (build_index cexCorpus).2.1 cex1.sceneId).isSome ∧
    (bm25DocScore (build_index cexCorpus).1 ["a"] cexCorpus.length
        (build_index cexCorpus).2.1 cex2.sceneId).isSome ∧
    (bm25DocScore (build_index cexCorpus).1 ["a"] cexCorpus.length
        (build_index cexCorpus).2.1 cex1.sceneId).getD 0 <
      (bm25DocScore (build_index cexCorpus).1 ["a"] cexCorpus.length
        (build_index cexCorpus).2.1 cex2.sceneId).getD 0 := by
  refine ⟨⟨by decide, by decide, by decide, by decide, by decide, by decide⟩, ?_, ?_, ?_⟩
  · rw [bm25DocScore_built cexCorpus ["a"] cex1 (by decide) (by decide)]
    simp
  · rw [bm25DocScore_built cexCorpus ["a"] cex2 (by decide) (by decide)]
    simp
  · rw [bm25DocScore_built cexCorpus ["a"] cex1 (by decide) (by decide),
      bm25DocScore_built cexCorpus ["a"] cex2 (by decide) (by decide)]
    simp only [Option.getD_some]
    have hu : uniqueQueryTerms ["a"] = ["a"] := rfl
    rw [hu]
    simp only [List.map_cons, List.map_nil, List.sum_cons, List.sum_nil, add_zero]
    rw [if_pos (show "a" ∈ cex1.text by decide), if_pos (show "a" ∈ cex2.text by decide)]
    have hni : ((lookupIdx (build_index cexCorpus).1 "a").getD []).length = 3 := rfl
    have hcl : (build_index cexCorpus).2.1 = 6 := rfl
    have hN : cexCorpus.length = 3 := rfl
    have hc1 : cex1.text.count "a" = 2 := rfl
    have hc2 : cex2.text.count "a" = 1 := rfl
    have hl1 : cex1.text.length = 2 := rfl
    have hl2 : cex2.text.length = 2 := rfl
    have hq : (["a"] : List String).count "a" = 1 := rfl
    rw [hni, hcl, hN, hc1, hc2, hl1, hl2, hq]
    have hlog : Real.log ((1 : ℝ) / 7) < 0 := Real.log_neg (by norm_num) (by norm_num)
    unfold idf tfWeight qtfWeight Kfac k1 k2 b
    norm_num
    nlinarith [hlog]

/-- Amended claim C5: the sort-and-truncate step of both scorers returns
the min(K, n) highest-scoring entries in non-increasing score order
(every kept entry's score at least every dropped one's), with ties
broken stably (any pair in the comparison order that is a sublist of the
input stays a sublist of the sorted output), and when fewer than K
entries exist it returns all of them as a permutation of the input,
sorted in non-increasing order — not necessarily in the original input
order, see the counterexample; in particular 250 entries yield exactly
100 and 5 entries yield all 5. -/
theorem claim_C5 (entries : List Posting) :
    (topK entries 100).length = min 100 entries.length ∧
    (topK entries 100).Pairwise (fun a c => c.score ≤ a.score) ∧
    (entries.length ≤ 100 → (topK entries 100).Perm entries) ∧
    (∀ a c : Posting, scoreDescLe a c → List.Sublist [a, c] entries →
      List.Sublist [a, c] (entries.mergeSort scoreDescLe)) ∧
    (∀ p ∈ topK entries 100, ∀ r ∈ (entries.mergeSort scoreDescLe).drop 100,
      r.score ≤ p.score) ∧
    (entries.length = 250 → (topK entries 100).length = 100) ∧
    (entries.length = 5 → (topK entries 100).length = 5) := by
  have hsort := @List.sorted_mergeSort Posting scoreDescLe
    scoreDescLe_trans scoreDescLe_total entries
  have hlen : (topK entries 100).length = min 100 entries.length := by
    simp [topK]
  refine ⟨hlen, ?_, ?_, ?_, ?_, ?_, ?_⟩
  · have hp : (topK entries 100).Pairwise (fun a c => scoreDescLe a c) :=
      hsort.sublist (List.take_sublist 100 _)
    exact hp.imp (fun h => by simpa [scoreDescLe, decide_eq_true_eq] using h)
  · intro hle
    unfold topK
    rw [List.take_of_length_le (by simpa using hle)]
    exact List.mergeSort_perm entries scoreDescLe
  · intro a c hac hsub
    exact List.pair_sublist_mergeSort scoreDescLe_trans scoreDescLe_total hac hsub
  · intro p hp r hr
    have hsplit := List.take_append_drop 100 (entries.mergeSort scoreDescLe)
    have hpw : ((entries.mergeSort scoreDescLe).take 100 ++
        (entries.mergeSort scoreDescLe).drop 100).Pairwise
        (fun a c => scoreDescLe a c) := by
      rw [hsplit]
      exact hsort
    have := (List.pairwise_append.mp hpw).2.2 p hp r hr
    simpa [scoreDescLe, decide_eq_true_eq] using this
  · intro h250
    rw [hlen, h250]
    decide
  · intro h5
    rw [hlen, h5]
    decide

/-- A posting with score 1, for the top-K claims. -/
def q1 : Posting := ⟨"x", [0], 1, 1, 1, 1⟩

/-- A posting with score 2, for the top-K claims. -/
def q2 : Posting := ⟨"y", [0], 1, 1, 2, 1⟩

/-- Witness for the amended claim C5 at a concrete two-entry input. -/
theorem claim_C5_witness :
    ([q1, q2].length ≤ 100) ∧ (topK [q1, q2] 100).Perm [q1, q2] :=
  ⟨by decide, (claim_C5 [q1, q2]).2.2.1 (by decide)⟩

/-- Counterexample to claim C5 as stated: on an input of two entries
(fewer than K) whose scores are increasing, the result is not the input
unchanged in order — the sort reorders it to non-increasing scores. -/
theorem claim_C5_counterexample :
    [q1, q2].length ≤ 100 ∧ topK [q1, q2] 100 ≠ [q1, q2] := by
  refine ⟨by decide, ?_⟩
  intro h
  have htake : topK [q1, q2] 100 = List.mergeSort [q1, q2] scoreDescLe := by
    unfold topK
    exact List.take_of_length_le (by simp)
  rw [htake] at h
  have hsort := @List.sorted_mergeSort Posting scoreDescLe
    scoreDescLe_trans scoreDescLe_total [q1, q2]
  rw [h] at hsort
  obtain ⟨hrel, _⟩ := List.pairwise_cons.mp hsort
  have h12 := hrel q2 (by simp)
  simp only [scoreDescLe, decide_eq_true_eq] at h12
  rw [show q2.score = 2 from rfl, show q1.score = 1 from rfl] at h12
  norm_num at h12

/-- A two-document corpus, each document containing the query term once,
exhibiting the duplicated-contribution bug of ql_ranking. -/
def corpus2 : List Doc := [⟨"e1", ["a"]⟩, ⟨"e2", ["a"]⟩]

/-- Claim C1 (code bug): on the two-document corpus in which both
documents contain the single query term, ql_ranking appends one entry
per (document, posting-of-term) pair — the nested posting loop of the
source — so each document appears twice in the result, both before and
after sorting and truncation, contradicting the claimed exactly-one
contribution per (term, document) pair and exactly-one result entry per
document. -/
theorem claim_C1 :
    (qlEntries (build_index corpus2).1 ["a"] corpus2 (build_index corpus2).2.1
        (build_index corpus2).2.2).map
      (fun l => l.map (fun p => p.doc_id)) = some ["e1", "e2", "e1", "e2"] ∧
    (ql_ranking (build_index corpus2).1 ["a"] corpus2 (build_index corpus2).2.1
        (build_index corpus2).2.2).map
      (fun r => (r.1.map (fun p => p.doc_id)).count "e1") = some 2 := by
  have h1 : (qlEntries (build_index corpus2).1 ["a"] corpus2 (build_index corpus2).2.1
      (build_index corpus2).2.2).map
      (fun l => l.map (fun p => p.doc_id)) = some ["e1", "e2", "e1", "e2"] := rfl
  refine ⟨h1, ?_⟩
  cases hfold : qlDocsFold (build_index corpus2).2.1 (build_index corpus2).2.2 ["a"]
      corpus2 ((build_index corpus2).1, []) with
  | none =>
      rw [show (qlEntries (build_index corpus2).1 ["a"] corpus2
          (build_index corpus2).2.1 (build_index corpus2).2.2) =
          match qlDocsFold (build_index corpus2).2.1 (build_index corpus2).2.2 ["a"]
              corpus2 ((build_index corpus2).1, []) with
          | none => none
          | some (idx', refs) => some (resolveRefs idx' refs) from rfl, hfold] at h1
      exact absurd h1 (by simp)
  | some st =>
      obtain ⟨idx2, refs⟩ := st
      have hent : qlEntries (build_index corpus2).1 ["a"] corpus2
          (build_index corpus2).2.1 (build_index corpus2).2.2 =
          some (resolveRefs idx2 refs) := by
        unfold qlEntries
        rw [hfold]
      have hql : ql_ranking (build_index corpus2).1 ["a"] corpus2
          (build_index corpus2).2.1 (build_index corpus2).2.2 =
          some (topK (resolveRefs idx2 refs) 100, idx2) := by
        unfold ql_ranking
        rw [hfold]
      rw [hent] at h1
      have hmap : (resolveRefs idx2 refs).map (fun p => p.doc_id) =
          ["e1", "e2", "e1", "e2"] := by
        injection h1
      rw [hql]
      simp only [Option.map_some']
      congr 1
      have hlen4 : (resolveRefs idx2 refs).length = 4 := by
        have := congrArg List.length hmap
        simpa using this
      have htake : topK (resolveRefs idx2 refs) 100 =
          (resolveRefs idx2 refs).mergeSort scoreDescLe := by
        unfold topK
        apply List.take_of_length_le
        rw [List.length_mergeSort, hlen4]
        norm_num
      have hperm : (topK (resolveRefs idx2 refs) 100).Perm (resolveRefs idx2 refs) := by
        rw [htake]
        exact List.mergeSort_perm _ scoreDescLe
      rw [(hperm.map (fun p => p.doc_id)).count_eq, hmap]
      rfl

/-- Two successive evaluations of the same QL query against the same
shared index, as the batch loop of main does: the index returned by the
first call is the one the second call receives; the result is the pair
of score lists of the two runs. -/
noncomputable def qlTwice (idx : Index) (terms : List String) (corpus : List Doc)
    (collLen : Nat) (cqi : Cqi) : Option (List ℝ × List ℝ) :=
  match ql_ranking idx terms corpus collLen cqi with
  | none => none
  | some (r1, idx1) =>
      match ql_ranking idx1 terms corpus collLen cqi with
      | none => none
      | some (r2, _) => some (r1.map (fun p => p.score), r2.map (fun p => p.score))

/-- A one-document corpus on which the QL smoothing contribution of the
query term is non-zero. -/
def corpus1 : List Doc := [⟨"d1", ["a", "b"]⟩]

/-- The shared index after the first QL evaluation: the posting of the
query term carries the accumulated score. -/
noncomputable def idxAfter1 : Index :=
  [("a", [⟨"d1", [0], 1, 2, 0 + qlContrib 1 2 1 2, 1⟩]),
   ("b", [⟨"d1", [1], 1, 2, 0, 1⟩])]

/-- The shared index after the second QL evaluation: the leftover score
of the first run has been added onto again. -/
noncomputable def idxAfter2 : Index :=
  [("a", [⟨"d1", [0], 1, 2, 0 + qlContrib 1 2 1 2 + qlContrib 1 2 1 2, 1⟩]),
   ("b", [⟨"d1", [1], 1, 2, 0, 1⟩])]

/-- Claim C2 (code bug): running the same QL query twice against the
same built index does not yield identical scores — the posting score
accumulator is never reset, so the second run returns twice the
contribution of the first (ql_ranking line 156 adds onto the stored
score).  The bm25 scorer overwrites rather than accumulates, but the
claim quantifies over both models, and QL violates it. -/
theorem claim_C2 :
    qlTwice (build_index corpus1).1 ["a"] corpus1 (build_index corpus1).2.1
        (build_index corpus1).2.2 =
      some ([Real.log ((151 : ℝ) / 302)], [2 * Real.log ((151 : ℝ) / 302)]) ∧
    Real.log ((151 : ℝ) / 302) ≠ 2 * Real.log ((151 : ℝ) / 302) := by
  have hfold1 : qlDocsFold (build_index corpus1).2.1 (build_index corpus1).2.2 ["a"]
      corpus1 ((build_index corpus1).1, []) = some (idxAfter1, [("a", 0)]) := rfl
  have hfold2 : qlDocsFold (build_index corpus1).2.1 (build_index corpus1).2.2 ["a"]
      corpus1 (idxAfter1, []) = some (idxAfter2, [("a", 0)]) := rfl
  have hres1 : resolveRefs idxAfter1 [("a", 0)] =
      [⟨"d1", [0], 1, 2, 0 + qlContrib 1 2 1 2, 1⟩] := rfl
  have hres2 : resolveRefs idxAfter2 [("a", 0)] =
      [⟨"d1", [0], 1, 2, 0 + qlContrib 1 2 1 2 + qlContrib 1 2 1 2, 1⟩] := rfl
  have hr1 : ql_ranking (build_index corpus1).1 ["a"] corpus1
      (build_index corpus1).2.1 (build_index corpus1).2.2 =
      some ([⟨"d1", [0], 1, 2, 0 + qlContrib 1 2 1 2, 1⟩], idxAfter1) := by
    unfold ql_ranking
    rw [hfold1]
    dsimp only
    rw [hres1]
    simp [topK]
  have hr2 : ql_ranking idxAfter1 ["a"] corpus1
      (build_index corpus1).2.1 (build_index corpus1).2.2 =
      some ([⟨"d1", [0], 1, 2, 0 + qlContrib 1 2 1 2 + qlContrib 1 2 1 2, 1⟩],
        idxAfter2) := by
    unfold ql_ranking
    rw [hfold2]
    dsimp only
    rw [hres2]
    simp [topK]
  have hc : qlContrib 1 2 1 2 = Real.log ((151 : ℝ) / 302) := by
    unfold qlContrib mue
    norm_num
  constructor
  · unfold qlTwice
    rw [hr1]
    dsimp only
    rw [hr2]
    dsimp only
    rw [hc]
    norm_num
    ring
  · have hneg : Real.log ((151 : ℝ) / 302) < 0 :=
      Real.log_neg (by norm_num) (by norm_num)
    intro h
    linarith [h ▸ hneg]

/-- Amended claim C10: on a non-empty corpus, evaluating either scorer
with a query containing a term that is not a key of the built index
mutates the shared index through the defaultdict lookup: both rankings
succeed and the index they return contains the unknown term bound to the
empty posting list, visible to all subsequent queries.  On an empty
corpus, by contrast, bm25_ranking fails before any lookup and
ql_ranking's document loop never runs, so no key is inserted — see the
counterexample. -/
theorem claim_C10 (d0 : Doc) (rest : List Doc) (q : List String) (t : String)
    (htq : t ∈ q)
    (hmiss : lookupIdx (build_index (d0 :: rest)).1 t = none) :
    (∃ res idx2, bm25_ranking (build_index (d0 :: rest)).1 q (d0 :: rest)
        (build_index (d0 :: rest)).2.1 = some (res, idx2) ∧
      lookupIdx idx2 t = some []) ∧
    (∃ res idx2, ql_ranking (build_index (d0 :: rest)).1 q (d0 :: rest)
        (build_index (d0 :: rest)).2.1 (build_index (d0 :: rest)).2.2 =
        some (res, idx2) ∧
      lookupIdx idx2 t = some []) := by
  constructor
  · obtain ⟨idx2, hfold, hev⟩ := bm25DocsFold_char_cons (d0 :: rest).length
      (build_index (d0 :: rest)).2.1
      (((build_index (d0 :: rest)).2.1 : ℝ) / ((d0 :: rest).length : ℝ)) q
      d0 rest (build_index (d0 :: rest)).1 [] (fun u _ => built_guard (d0 :: rest) u)
    refine ⟨topK (resolveRefs idx2 ((d0 :: rest).flatMap
        (fun e => (uniqueQueryTerms q).flatMap (fun u => matchRefs u e.sceneId
          ((lookupIdx (build_index (d0 :: rest)).1 u).getD []) 0)))) 100,
      idx2, ?_, hev.2.1 t hmiss ((uniqueQueryTerms_mem q t).mpr htq)⟩
    unfold bm25_ranking
    rw [if_neg (by simp), hfold]
    simp
  · obtain ⟨idx2, hfold, hev⟩ := qlDocsFold_char_cons (build_index (d0 :: rest)).2.1
      (build_index (d0 :: rest)).2.2 q d0 rest (build_index (d0 :: rest)).1 []
      (fun u _ => built_ql_guard (d0 :: rest) u)
    refine ⟨topK (resolveRefs idx2 ((d0 :: rest).flatMap
        (fun e => (uniqueQueryTerms q).flatMap (fun u => seqRefs u
          ((lookupIdx (build_index (d0 :: rest)).1 u).getD []) 0)))) 100,
      idx2, ?_, hev.2.1 t hmiss ((uniqueQueryTerms_mem q t).mpr htq)⟩
    unfold ql_ranking
    rw [hfold]
    simp

/-- Witness for the amended claim C10 at a concrete one-document corpus
and a query made of one unknown term. -/
theorem claim_C10_witness :
    ("x" ∈ ["x"] ∧
      lookupIdx (build_index [(⟨"d1", ["a"]⟩ : Doc)]).1 "x" = none) ∧
    ((∃ res idx2, bm25_ranking (build_index [(⟨"d1", ["a"]⟩ : Doc)]).1 ["x"]
        [(⟨"d1", ["a"]⟩ : Doc)] (build_index [(⟨"d1", ["a"]⟩ : Doc)]).2.1 =
        some (res, idx2) ∧
      lookupIdx idx2 "x" = some []) ∧
    (∃ res idx2, ql_ranking (build_index [(⟨"d1", ["a"]⟩ : Doc)]).1 ["x"]
        [(⟨"d1", ["a"]⟩ : Doc)] (build_index [(⟨"d1", ["a"]⟩ : Doc)]).2.1
        (build_index [(⟨"d1", ["a"]⟩ : Doc)]).2.2 = some (res, idx2) ∧
      lookupIdx idx2 "x" = some [])) :=
  ⟨⟨by simp, rfl⟩, claim_C10 (⟨"d1", ["a"]⟩ : Doc) [] ["x"] "x" (by simp) rfl⟩

/-- Amended claim C9: on a non-empty corpus, a query term that appears
nowhere in the corpus (so it has no index key: ni = 0, cqi = 0) does not
make scoring fail: both bm25_ranking and ql_ranking succeed, and the
ranked result list is exactly the one obtained for the query with that
term removed — the unknown term's posting list is empty, so it
contributes nothing.  On the empty corpus, by contrast, bm25_ranking
itself fails with a ZeroDivisionError computing avgdl, which is the
counterexample to the claim as stated. -/
theorem claim_C9 (d0 : Doc) (rest : List Doc) (q : List String) (t : String)
    (htq : t ∈ q)
    (hmiss : lookupIdx (build_index (d0 :: rest)).1 t = none) :
    (bm25_ranking (build_index (d0 :: rest)).1 q (d0 :: rest)
        (build_index (d0 :: rest)).2.1).isSome ∧
    (ql_ranking (build_index (d0 :: rest)).1 q (d0 :: rest)
        (build_index (d0 :: rest)).2.1 (build_index (d0 :: rest)).2.2).isSome ∧
    (bm25_ranking (build_index (d0 :: rest)).1 q (d0 :: rest)
        (build_index (d0 :: rest)).2.1).map Prod.fst =
      (bm25_ranking (build_index (d0 :: rest)).1 (q.filter (fun u => u ≠ t))
        (d0 :: rest) (build_index (d0 :: rest)).2.1).map Prod.fst ∧
    (ql_ranking (build_index (d0 :: rest)).1 q (d0 :: rest)
        (build_index (d0 :: rest)).2.1 (build_index (d0 :: rest)).2.2).map Prod.fst =
      (ql_ranking (build_index (d0 :: rest)).1 (q.filter (fun u => u ≠ t))
        (d0 :: rest) (build_index (d0 :: rest)).2.1
        (build_index (d0 :: rest)).2.2).map Prod.fst := by
  have hnz : ¬ (d0 :: rest).length = 0 := by simp
  have htL : t ∉ uniqueQueryTerms (q.filter (fun u => u ≠ t)) := by
    intro hmem
    have := (uniqueQueryTerms_mem _ t).mp hmem
    have := (List.mem_filter.mp this).2
    simp at this
  obtain ⟨ia2c, hfa, _⟩ := bm25DocsFold_char_cons (d0 :: rest).length
    (build_index (d0 :: rest)).2.1
    (((build_index (d0 :: rest)).2.1 : ℝ) / ((d0 :: rest).length : ℝ)) q
    d0 rest (build_index (d0 :: rest)).1 [] (fun u _ => built_guard (d0 :: rest) u)
  obtain ⟨ib2c, hfb, hevb⟩ := bm25DocsFold_char (d0 :: rest).length
    (build_index (d0 :: rest)).2.1
    (((build_index (d0 :: rest)).2.1 : ℝ) / ((d0 :: rest).length : ℝ))
    (q.filter (fun u => u ≠ t)) (d0 :: rest) (build_index (d0 :: rest)).1 []
    (fun u _ => built_guard (d0 :: rest) u)
  obtain ⟨qa2c, hqfa, _⟩ := qlDocsFold_char_cons (build_index (d0 :: rest)).2.1
    (build_index (d0 :: rest)).2.2 q d0 rest (build_index (d0 :: rest)).1 []
    (fun u _ => built_ql_guard (d0 :: rest) u)
  obtain ⟨qb2c, hqfb, hqevb⟩ := qlDocsFold_char (build_index (d0 :: rest)).2.1
    (build_index (d0 :: rest)).2.2 (q.filter (fun u => u ≠ t)) (d0 :: rest)
    (build_index (d0 :: rest)).1 [] (fun u _ => built_ql_guard (d0 :: rest) u)
  rcases bm25DocsFold_parallel t (d0 :: rest).length (build_index (d0 :: rest)).2.1
      (((build_index (d0 :: rest)).2.1 : ℝ) / ((d0 :: rest).length : ℝ)) q
      (d0 :: rest) (build_index (d0 :: rest)).1 (build_index (d0 :: rest)).1 []
      ⟨fun u _ => rfl, Or.inl hmiss⟩ with
    ⟨hna, _⟩ | ⟨pa2, pb2, prefs, hpa, hpb, hq2⟩
  · rw [hfa] at hna
    exact absurd hna (by simp)
  rcases qlDocsFold_parallel t (build_index (d0 :: rest)).2.1
      (build_index (d0 :: rest)).2.2 q (d0 :: rest)
      (build_index (d0 :: rest)).1 (build_index (d0 :: rest)).1 []
      ⟨fun u _ => rfl, Or.inl hmiss⟩ with
    ⟨hqna, _⟩ | ⟨qa2, qb2, qrefs, hqpa, hqpb, hqq2⟩
  · rw [hqfa] at hqna
    exact absurd hqna (by simp)
  have hbeq : pb2 = ib2c := by
    rw [hfb] at hpb
    injection hpb with hpb
    exact (congrArg Prod.fst hpb).symm
  have hbt : lookupIdx pb2 t = none ∨ lookupIdx pb2 t = some [] := by
    rw [hbeq]
    exact Or.inl (hevb.2.2 t hmiss htL)
  have hqbeq : qb2 = qb2c := by
    rw [hqfb] at hqpb
    injection hqpb with hqpb
    exact (congrArg Prod.fst hqpb).symm
  have hqbt : lookupIdx qb2 t = none ∨ lookupIdx qb2 t = some [] := by
    rw [hqbeq]
    exact Or.inl (hqevb.2.2 t hmiss htL)
  refine ⟨?_, ?_, ?_, ?_⟩
  · unfold bm25_ranking
    rw [if_neg hnz, hpa]
    simp
  · unfold ql_ranking
    rw [hqpa]
    simp
  · unfold bm25_ranking
    rw [if_neg hnz, if_neg hnz, hpa, hpb]
    simp only [Option.map_some']
    rw [resolveRefs_eq_of_qstate t pa2 pb2 hq2.1 hq2.2 hbt prefs]
  · unfold ql_ranking
    rw [hqpa, hqpb]
    simp only [Option.map_some']
    rw [resolveRefs_eq_of_qstate t qa2 qb2 hqq2.1 hqq2.2 hqbt qrefs]

/-- Witness for the amended claim C9 at a concrete one-document corpus
and a query mixing one known and one unknown term. -/
theorem claim_C9_witness :
    ("x" ∈ ["x", "a"] ∧
      lookupIdx (build_index [(⟨"d1", ["a"]⟩ : Doc)]).1 "x" = none) ∧
    ((bm25_ranking (build_index [(⟨"d1", ["a"]⟩ : Doc)]).1 ["x", "a"]
        [(⟨"d1", ["a"]⟩ : Doc)] (build_index [(⟨"d1", ["a"]⟩ : Doc)]).2.1).isSome ∧
      (ql_ranking (build_index [(⟨"d1", ["a"]⟩ : Doc)]).1 ["x", "a"]
        [(⟨"d1", ["a"]⟩ : Doc)] (build_index [(⟨"d1", ["a"]⟩ : Doc)]).2.1
        (build_index [(⟨"d1", ["a"]⟩ : Doc)]).2.2).isSome ∧
      (bm25_ranking (build_index [(⟨"d1", ["a"]⟩ : Doc)]).1 ["x", "a"]
        [(⟨"d1", ["a"]⟩ : Doc)] (build_index [(⟨"d1", ["a"]⟩ : Doc)]).2.1).map
          Prod.fst =
        (bm25_ranking (build_index [(⟨"d1", ["a"]⟩ : Doc)]).1
          (["x", "a"].filter (fun u => u ≠ "x")) [(⟨"d1", ["a"]⟩ : Doc)]
          (build_index [(⟨"d1", ["a"]⟩ : Doc)]).2.1).map Prod.fst ∧
      (ql_ranking (build_index [(⟨"d1", ["a"]⟩ : Doc)]).1 ["x", "a"]
        [(⟨"d1", ["a"]⟩ : Doc)] (build_index [(⟨"d1", ["a"]⟩ : Doc)]).2.1
        (build_index [(⟨"d1", ["a"]⟩ : Doc)]).2.2).map Prod.fst =
        (ql_ranking (build_index [(⟨"d1", ["a"]⟩ : Doc)]).1
          (["x", "a"].filter (fun u => u ≠ "x")) [(⟨"d1", ["a"]⟩ : Doc)]
          (build_index [(⟨"d1", ["a"]⟩ : Doc)]).2.1
          (build_index [(⟨"d1", ["a"]⟩ : Doc)]).2.2).map Prod.fst) :=
  ⟨⟨by simp, rfl⟩, claim_C9 (⟨"d1", ["a"]⟩ : Doc) [] ["x", "a"] "x" (by simp) rfl⟩

/-- Claim C7: building the index from the one-document corpus whose text
tokenizes to a, b, a yields exactly the two stated entries (the a entry
with positions 0 and 2, term frequency 2, document length 3; the b entry
with position 1, term frequency 1, document length 3) and nothing else;
the collection length is 3 and the corpus-wide counts are a : 2, b : 1. -/
theorem claim_C7 :
    build_index [⟨"doc", ["a", "b", "a"]⟩] =
      ([("a", [⟨"doc", [0, 2], 2, 3, 0, 1⟩]), ("b", [⟨"doc", [1], 1, 3, 0, 1⟩])],
        3, [("a", 2), ("b", 1)]) := rfl

end Indexer
